import Mathlib

/-! # Generic data structures: hash table, linked list, stack

Shallow embeddings of `hash-table/src/hash-table.c`, `linked-list/src/linked-list.c`
and `stack/src/stack.c`.

Hash table:
* A key (`char *`, NUL-terminated) is the list of its bytes before the
  terminator; every byte is non-zero and below 256 (`cstring`).
* A value (`void *` to `entry_width` bytes) is a list of bytes.
* A chain (`entry_t` linked through `next`) is a `List entry_t`, the head of
  the list being the bucket head; the empty list is the `NULL` head.
* The bucket array is a list of chains.
* `size_t` is 64 bits wide; arithmetic on it is reduced modulo `2 ^ 64`.
* `malloc`/`calloc` are represented by a flag saying whether the allocations
  of the call succeed.
* A `NULL` dereference is the result `none`.

Linked list:
* A node carries its address, so that the pointers `element` and `tail` can be
  compared with it; the chain reached from `head` is the list of its nodes.
* `malloc` is represented by the address it returns, `none` when it fails.
* The recursive functions of the merge sort take a bound `fuel` on the depth
  of the recursion and return `none` when it is exceeded.

Stack:
* The block `stack_base` points to is the list of its bytes.
* `realloc` is represented by a flag saying whether it succeeds.
-/

set_option maxRecDepth 100000

namespace HashTable

/-- Operation completed successfully. -/
def TABLE_OK : Int := 0
/-- Memory allocation error. -/
def MEM_ERROR : Int := -1
/-- Key has no corresponding value in the table. -/
def INVALID_ENTRY : Int := -2

/-- Width of `size_t` in bits. -/
def SIZE_BITS : Nat := 64

/-- Number of values of `size_t`; arithmetic wraps modulo this. -/
def SIZE_MOD : Nat := 2 ^ SIZE_BITS

/-- A C string: the bytes before the terminating NUL. -/
abbrev cstring : Type := { s : List Nat // ∀ c ∈ s, 0 < c ∧ c < 256 }

/-- One entry of a chain; the `next` pointer is the tail of the list holding it. -/
structure entry_t where
  data : List Nat
  name : cstring
deriving DecidableEq

/-- The table: bucket heads, number of buckets, width of every value. -/
structure table_t where
  buckets : List (List entry_t)
  bucket_count : Nat
  entry_width : Nat
deriving DecidableEq

/-- Library `strcmp`: zero exactly on equal strings, otherwise the sign of the
first differing byte (the terminator counting as byte 0). -/
def strcmp : List Nat → List Nat → Int
  | [], [] => 0
  | [], _ :: _ => -1
  | _ :: _, [] => 1
  | a :: s, b :: t => if a = b then strcmp s t else if a < b then -1 else 1

/-- Library `memcpy(dest, src, n)`: the first `n` bytes of `dest` are replaced
by the first `n` bytes of `src`. -/
def memcpy (dest src : List Nat) (n : Nat) : List Nat :=
  src.take n ++ dest.drop n

/-- The loop of `hashstring`: `hash = ((hash << 5) + hash) + c` in `size_t`. -/
def hashstring_loop (hash : Nat) : List Nat → Nat
  | [] => hash
  | c :: str =>
    hashstring_loop ((((hash <<< 5) % SIZE_MOD + hash) % SIZE_MOD + c) % SIZE_MOD) str

/-- DJB hash of a string, seed 5381. -/
def hashstring (str : cstring) : Nat :=
  hashstring_loop 5381 str.val

/-- Bucket index of a key. The C remainder is undefined for `bucket_count = 0`;
every statement below is about tables with a positive bucket count. -/
def get_key (table : table_t) (entry_name : cstring) : Nat :=
  hashstring entry_name % table.bucket_count

/-- Entry filled by `new_entry`: a copy of the name and of the first
`entry_width` bytes of the value (the caller supplies at least that many). -/
def new_entry (table : table_t) (name : cstring) (data : List Nat) : entry_t :=
  { name := name, data := data.take table.entry_width }

/-- In-place overwrite of the value bytes of an entry. -/
def update_entry (table : table_t) (cur_entry : entry_t) (data : List Nat) : entry_t :=
  { cur_entry with data := memcpy cur_entry.data data table.entry_width }

/-- Result of `htinit`: `calloc` of `bucket_count` zeroed (empty) heads; when
it fails no table is produced. -/
def htinit (calloc_ok : Bool) (entry_width bucket_count : Nat) : Int × Option table_t :=
  if calloc_ok then
    (TABLE_OK, some { buckets := List.replicate bucket_count [],
                      bucket_count := bucket_count, entry_width := entry_width })
  else
    (MEM_ERROR, none)

/-- The branch of `htinsert` for a non-empty bucket, from a non-null
`cur_entry` (followed by `rest`): the `for` loop runs while `cur_entry->next`
is non-null, comparing the name of `cur_entry`; when it ends, a new entry is
linked after `cur_entry`. -/
def htinsert_chain (table : table_t) (malloc_ok : Bool) (entry_name : cstring)
    (data : List Nat) : entry_t → List entry_t → Int × List entry_t
  | cur_entry, [] =>
    if malloc_ok then (TABLE_OK, [cur_entry, new_entry table entry_name data])
    else (MEM_ERROR, [cur_entry])
  | cur_entry, next :: rest =>
    if strcmp cur_entry.name.val entry_name.val = 0 then
      (TABLE_OK, update_entry table cur_entry data :: next :: rest)
    else
      let r := htinsert_chain table malloc_ok entry_name data next rest
      (r.1, cur_entry :: r.2)

/-- Insert an entry into the table. -/
def htinsert (malloc_ok : Bool) (table : table_t) (entry_name : cstring)
    (data : List Nat) : Int × table_t :=
  let bucket := get_key table entry_name
  match table.buckets.getD bucket [] with
  | [] =>
    if malloc_ok then
      (TABLE_OK, { table with buckets := table.buckets.set bucket [new_entry table entry_name data] })
    else
      (MEM_ERROR, table)
  | cur_entry :: rest =>
    let r := htinsert_chain table malloc_ok entry_name data cur_entry rest
    (r.1, { table with buckets := table.buckets.set bucket r.2 })

/-- The scan of `htlookup` over a chain; `value` is the nullable destination
buffer, returned with the bytes copied into it. -/
def htlookup_chain (entry_width : Nat) (entry_name : cstring) (value : Option (List Nat)) :
    List entry_t → Int × Option (List Nat)
  | [] => (INVALID_ENTRY, value)
  | cur_entry :: rest =>
    if strcmp cur_entry.name.val entry_name.val = 0 then
      (TABLE_OK, value.map (fun buf => memcpy buf cur_entry.data entry_width))
    else
      htlookup_chain entry_width entry_name value rest

/-- Check if a given key is valid and place the corresponding value into `value`. -/
def htlookup (table : table_t) (entry_name : cstring) (value : Option (List Nat)) :
    Int × Option (List Nat) :=
  htlookup_chain table.entry_width entry_name value
    (table.buckets.getD (get_key table entry_name) [])

/-- The `while` loop of `htdelete` from a non-null `cur_entry` (followed by
`rest`): `none` when the end of the chain is reached, otherwise the chain from
`cur_entry` on with the matching entry unlinked. -/
def htdelete_chain (entry_name : cstring) : entry_t → List entry_t → Option (List entry_t)
  | cur_entry, rest =>
    if strcmp cur_entry.name.val entry_name.val ≠ 0 then
      match rest with
      | [] => none
      | next :: rest' => (htdelete_chain entry_name next rest').map (fun c => cur_entry :: c)
    else
      some rest

/-- Delete a key and value from the table; `none` is the dereference of a
null bucket head by `cur_entry->name`. -/
def htdelete (table : table_t) (entry_name : cstring) : Option (Int × table_t) :=
  let bucket := get_key table entry_name
  match table.buckets.getD bucket [] with
  | [] => none
  | cur_entry :: rest =>
    match htdelete_chain entry_name cur_entry rest with
    | none => some (INVALID_ENTRY, table)
    | some chain => some (TABLE_OK, { table with buckets := table.buckets.set bucket chain })

/-- Tables obtained from a successful `htinit` with a positive bucket count by
`htinsert` calls (values of `entry_width` bytes) and `htdelete` calls that
return. -/
inductive Reachable : table_t → Prop
  | init (entry_width bucket_count : Nat) (table : table_t) :
      0 < bucket_count → htinit true entry_width bucket_count = (TABLE_OK, some table) →
      Reachable table
  | insert (malloc_ok : Bool) (table : table_t) (entry_name : cstring) (data : List Nat) :
      Reachable table → data.length = table.entry_width →
      Reachable (htinsert malloc_ok table entry_name data).2
  | delete (table : table_t) (entry_name : cstring) (status : Int) (table' : table_t) :
      Reachable table → htdelete table entry_name = some (status, table') →
      Reachable table'

/-- Total number of entries stored in the table. -/
def entry_count (table : table_t) : Nat :=
  (table.buckets.map List.length).sum

/-- The first entry of a chain whose name is `k`. -/
def first_named (k : cstring) (chain : List entry_t) : Option entry_t :=
  chain.find? (fun e => decide (e.name = k))

/-- The chain of bucket `i` (empty for a null head). -/
def chain_at (table : table_t) (i : Nat) : List entry_t :=
  table.buckets.getD i []

/-- Shape of an initialised table: one head per bucket, at least one bucket. -/
structure WF (table : table_t) : Prop where
  length_eq : table.buckets.length = table.bucket_count
  count_pos : 0 < table.bucket_count

/-- Invariant of the tables built by the operations: well-formed, every entry
in the bucket of its name, every value `entry_width` bytes long. -/
structure Inv (table : table_t) extends WF table : Prop where
  placed : ∀ i, ∀ e ∈ chain_at table i, get_key table e.name = i
  sized : ∀ i, ∀ e ∈ chain_at table i, e.data.length = table.entry_width

/-- What `htinsert` does to the chain of the target bucket: status and new chain. -/
def htinsert_bucket (table : table_t) (malloc_ok : Bool) (entry_name : cstring)
    (data : List Nat) : List entry_t → Int × List entry_t
  | [] => if malloc_ok then (TABLE_OK, [new_entry table entry_name data]) else (MEM_ERROR, [])
  | cur_entry :: rest => htinsert_chain table malloc_ok entry_name data cur_entry rest

/-- The table a successful `htinit` yields: every head null. -/
def empty_table (entry_width bucket_count : Nat) : table_t :=
  { buckets := List.replicate bucket_count [], bucket_count := bucket_count,
    entry_width := entry_width }

/-- The names of all entries of the table, bucket after bucket. -/
def all_names (table : table_t) : List cstring :=
  (table.buckets.map (fun chain => chain.map (fun e => e.name))).flatten

/-- Key uniqueness: no two entries of the table carry the same name. -/
def unique_keys (table : table_t) : Prop :=
  (all_names table).Nodup

instance (table : table_t) : Decidable (unique_keys table) := by
  unfold unique_keys
  infer_instance

/-- Successive `htinsert` calls (allocations succeeding), as in the first loop
of the test program. -/
def insert_all (table : table_t) : List (cstring × List Nat) → table_t
  | [] => table
  | kv :: rest => insert_all (htinsert true table kv.1 kv.2).2 rest

/-- Successive `htdelete` calls, as in the third loop of the test program: the
statuses returned and the final table, `none` when a call faults. -/
def delete_all (table : table_t) : List cstring → Option (List Int × table_t)
  | [] => some ([], table)
  | k :: rest =>
    match htdelete table k with
    | none => none
    | some r => (delete_all r.2 rest).map (fun q => (r.1 :: q.1, q.2))

/-- The table holding the pairs `kvs`, each in the bucket of its key, in the
order of the list. -/
def table_of (entry_width bucket_count : Nat) (kvs : List (cstring × List Nat)) : table_t :=
  { buckets := (List.range bucket_count).map (fun i =>
      (kvs.filter (fun kv => decide (hashstring kv.1 % bucket_count = i))).map
        (fun kv => { data := kv.2.take entry_width, name := kv.1 })),
    bucket_count := bucket_count,
    entry_width := entry_width }

/-- The key `"foo"`. -/
def key_foo : cstring := ⟨[102, 111, 111], by decide⟩
/-- The key `"bar"`. -/
def key_bar : cstring := ⟨[98, 97, 114], by decide⟩
/-- The key `"baz"`. -/
def key_baz : cstring := ⟨[98, 97, 122], by decide⟩
/-- The key `"qux"`. -/
def key_qux : cstring := ⟨[113, 117, 120], by decide⟩

/-- The keys and values of the test program; the values are the `int`s 12, 432,
62, 145 as four little-endian bytes. -/
def test_pairs : List (cstring × List Nat) :=
  [(key_foo, [12, 0, 0, 0]), (key_bar, [176, 1, 0, 0]),
   (key_baz, [62, 0, 0, 0]), (key_qux, [145, 0, 0, 0])]

/-- The table of the test program after its insertions:
`sizeof(int)`-byte values, `DEFAULT_TABLE_SIZE` buckets. -/
def test_table : table_t :=
  insert_all (empty_table 4 1024) test_pairs

/-- The table of the test program with `"bar"` left out. -/
def test_table_without_bar : table_t :=
  insert_all (empty_table 4 1024)
    [(key_foo, [12, 0, 0, 0]), (key_baz, [62, 0, 0, 0]), (key_qux, [145, 0, 0, 0])]

/-- A table with 1024 buckets after `htinsert("foo", 12)`. -/
def foo_table : table_t :=
  (htinsert true (empty_table 4 1024) key_foo [12, 0, 0, 0]).2

/-- The table `foo_table` after a further `htinsert("foo", 432)`. -/
def foo_twice_table : table_t :=
  (htinsert true foo_table key_foo [176, 1, 0, 0]).2

end HashTable

/-! # Singly linked list (`linked-list.c`) -/

namespace LinkedList

/-- No error. -/
def LIST_OK : Int := 0
/-- Memory allocation error. -/
def MEM_ERROR : Int := -1
/-- List dimension error. -/
def SIZE_ERROR : Int := -2
/-- No data at given index. -/
def INDEX_ERROR : Int := -3

/-- A node of the list: `addr` is the address of the node (what a
`llist_element_t *` holds), `data` the bytes of its data block. The `next`
pointer is the tail of the list holding the node. -/
structure llist_element_t where
  addr : Nat
  data : List Nat
deriving DecidableEq

/-- The list master structure: `head` is the chain of nodes reached from the
head pointer (empty for `NULL`), `tail` the address held by the tail pointer
(`none` for `NULL`). The `int` field `length` is an unbounded integer. -/
structure llist_t where
  length : Int
  head : List llist_element_t
  tail : Option Nat
  data_width : Nat
deriving DecidableEq

/-- Library `memcpy(dest, src, n)`: the first `n` bytes of `dest` are replaced
by the first `n` bytes of `src`. -/
def memcpy (dest src : List Nat) (n : Nat) : List Nat :=
  src.take n ++ dest.drop n

/-- Initialise the list data structure. -/
def llist_init (list : llist_t) (data_width : Nat) : Int × llist_t :=
  if data_width ≤ 0 then
    (SIZE_ERROR, list)
  else
    (LIST_OK, { length := 0, head := [], tail := none, data_width := data_width })

/-- The assignment `p->next = q` seen from the head: the chain up to the node at
address `p`, continued by the chain `q`; a node outside the chain leaves the
chain as it is. -/
def set_next (p : Nat) (q : List llist_element_t) : List llist_element_t → List llist_element_t
  | [] => []
  | e :: rest => if e.addr = p then e :: q else e :: set_next p q rest

/-- Push an element to the back of the list. `malloc` is the address of the new
node, `none` when an allocation fails; the result `none` is the dereference of
a null tail pointer. -/
def llist_push (malloc : Option Nat) (data : List Nat) (list : llist_t) :
    Option (Int × llist_t) :=
  match malloc with
  | none => some (MEM_ERROR, list)
  | some a =>
    let new_element : llist_element_t := { addr := a, data := data.take list.data_width }
    match list.head with
    | [] =>
      some (LIST_OK, { list with head := [new_element], tail := some a,
                                 length := list.length + 1 })
    | h :: rest =>
      match list.tail with
      | none => none
      | some p =>
        some (LIST_OK, { list with head := set_next p [new_element] (h :: rest),
                                   tail := some a, length := list.length + 1 })

/-- Pop an element from the front of the list into the buffer `data`. -/
def llist_pop (data : List Nat) (list : llist_t) : Int × List Nat × llist_t :=
  match list.head with
  | [] => (INDEX_ERROR, data, list)
  | h :: rest =>
    (LIST_OK, memcpy data h.data list.data_width,
      { list with head := rest, length := list.length - 1 })

/-- The `while` loop of `llist_insert_before` from `curr`: the nodes passed
(`prev` is the last of them, or the head when there is none) and the chain from
the node the loop stops at (empty when `curr` reached `NULL`). -/
def llist_insert_before_walk (element : Option Nat) :
    List llist_element_t → List llist_element_t × List llist_element_t
  | [] => ([], [])
  | curr :: rest =>
    if some curr.addr = element then ([], curr :: rest)
    else
      let r := llist_insert_before_walk element rest
      (curr :: r.1, r.2)

/-- Insert an element into the list at the position before a specified
element. -/
def llist_insert_before (malloc : Option Nat) (data : List Nat) (element : Option Nat)
    (list : llist_t) : Option (Int × llist_t) :=
  match list.head with
  | [] => llist_push malloc data list
  | h :: rest =>
    match llist_insert_before_walk element rest with
    | (_, []) => some (INDEX_ERROR, list)
    | (passed, curr :: after) =>
      match malloc with
      | none => some (MEM_ERROR, list)
      | some a =>
        let new_element : llist_element_t := { addr := a, data := data.take list.data_width }
        if curr.addr = h.addr then
          some (LIST_OK, { list with head := new_element :: curr :: after,
                                     length := list.length + 1 })
        else
          some (LIST_OK, { list with head := h :: passed ++ new_element :: curr :: after,
                                     length := list.length + 1 })

/-- The loop of `llist_sort_split`: `fast` is the chain from the fast pointer,
`slow` the number of steps the slow pointer has made; the result is the number
of steps of the slow pointer when the loop ends. -/
def llist_sort_split_loop (slow : Nat) : List llist_element_t → Nat
  | [] => slow
  | [_] => slow
  | _ :: _ :: fast => llist_sort_split_loop (slow + 1) fast

/-- Split of a non-empty chain after the node the slow pointer ends on: the
front half (up to that node) and the back half. -/
def llist_sort_split (source : List llist_element_t) :
    List llist_element_t × List llist_element_t :=
  let slow := llist_sort_split_loop 0 (source.drop 1)
  (source.take (slow + 1), source.drop (slow + 1))

/-- Recursive merge of two chains; `fuel` bounds the depth of the recursion,
`none` when it is exceeded. -/
def llist_merge_sorted (compare : List Nat → List Nat → Int) :
    Nat → List llist_element_t → List llist_element_t → Option (List llist_element_t)
  | _, [], second_head => some second_head
  | _, h :: hs, [] => some (h :: hs)
  | 0, _ :: _, _ :: _ => none
  | fuel + 1, h :: hs, s :: ss =>
    if compare h.data s.data < 0 then
      (llist_merge_sorted compare fuel hs (s :: ss)).map (fun r => h :: r)
    else
      (llist_merge_sorted compare fuel (h :: hs) ss).map (fun r => s :: r)

/-- Recursive merge sort of a chain; `fuel` bounds the depth of the recursion,
`none` when it is exceeded. -/
def llist_sort_internal (compare : List Nat → List Nat → Int) :
    Nat → List llist_element_t → Option (List llist_element_t)
  | _, [] => some []
  | _, [e] => some [e]
  | 0, _ :: _ :: _ => none
  | fuel + 1, e :: e' :: rest =>
    let halves := llist_sort_split (e :: e' :: rest)
    match llist_sort_internal compare fuel halves.1,
          llist_sort_internal compare fuel halves.2 with
    | some front, some back => llist_merge_sorted compare fuel front back
    | _, _ => none

/-- The closing loop of `llist_sort`: the tail pointer is set to the node whose
`next` is null. -/
def llist_sort_tail (tail : Option Nat) : List llist_element_t → Option Nat
  | [] => tail
  | [curr] => some curr.addr
  | _ :: next :: rest => llist_sort_tail tail (next :: rest)

/-- Sort all elements in the list using a merge sort; `fuel` bounds the depth
of the recursion of the sort, `none` when it is exceeded. -/
def llist_sort (fuel : Nat) (compare : List Nat → List Nat → Int) (list : llist_t) :
    Option (Int × llist_t) :=
  match list.head with
  | [] => some (INDEX_ERROR, list)
  | h :: rest =>
    match llist_sort_internal compare fuel (h :: rest) with
    | none => none
    | some sorted =>
      some (LIST_OK, { list with head := sorted, tail := llist_sort_tail list.tail sorted })

/-- Lists obtained from `llist_init` with a positive width by `llist_push` calls
(fresh node address, data of `data_width` bytes) and `llist_pop` calls. -/
inductive PushPop : llist_t → Prop
  | init (list : llist_t) (data_width : Nat) (list' : llist_t) :
      0 < data_width → llist_init list data_width = (LIST_OK, list') → PushPop list'
  | push (list : llist_t) (malloc : Option Nat) (data : List Nat) (status : Int)
      (list' : llist_t) :
      PushPop list → (∀ a, malloc = some a → a ∉ list.head.map (fun e => e.addr)) →
      data.length = list.data_width →
      llist_push malloc data list = some (status, list') → PushPop list'
  | pop (list : llist_t) (data : List Nat) (status : Int) (out : List Nat) (list' : llist_t) :
      PushPop list → llist_pop data list = (status, out, list') → PushPop list'

/-- Invariant of the lists built by `llist_push` and `llist_pop`: when the list
is non-empty the tail pointer holds the address of the last node, the nodes have
distinct addresses, every data block has `data_width` bytes, and `length` is
the number of nodes. -/
structure QueueInv (list : llist_t) : Prop where
  tail_last : list.head ≠ [] → list.tail = list.head.getLast?.map (fun e => e.addr)
  nodup : (list.head.map (fun e => e.addr)).Nodup
  sized : ∀ e ∈ list.head, e.data.length = list.data_width
  length_eq : list.length = list.head.length

/-- A list of one-byte elements holding the node at address 10 with data 3. -/
def one_node_list : llist_t :=
  { length := 1, head := [{ addr := 10, data := [3] }], tail := some 10, data_width := 1 }

/-- A list of one-byte elements holding 3, 1, 2 in nodes at addresses 10, 20, 30. -/
def three_node_list : llist_t :=
  { length := 3,
    head := [{ addr := 10, data := [3] }, { addr := 20, data := [1] },
             { addr := 30, data := [2] }],
    tail := some 30, data_width := 1 }

/-- The `while` loop of `llist_remove` from `curr`: the chain from `curr` with
the first node at address `element` unlinked (`prev->next = curr->next`),
`none` when `curr` reaches `NULL`. -/
def llist_remove_walk (element : Nat) : List llist_element_t → Option (List llist_element_t)
  | [] => none
  | curr :: rest =>
    if curr.addr = element then some rest
    else (llist_remove_walk element rest).map (fun r => curr :: r)

/-- Remove an element from the list and connect the two elements next to it. -/
def llist_remove (element : Option Nat) (list : llist_t) : Int × llist_t :=
  match element, list.head with
  | none, _ => (INDEX_ERROR, list)
  | some _, [] => (INDEX_ERROR, list)
  | some p, h :: rest =>
    if h.addr = p then
      (LIST_OK, { list with head := rest })
    else
      match llist_remove_walk p rest with
      | none => (INDEX_ERROR, list)
      | some rest' => (LIST_OK, { list with head := h :: rest', length := list.length - 1 })

/-- The assignments `new_element->next = element->next; element->next =
new_element` seen from the head: the new node is linked behind the node at
address `element`; a node outside the chain leaves the chain as it is. -/
def link_after (element : Nat) (new_element : llist_element_t) :
    List llist_element_t → List llist_element_t
  | [] => []
  | e :: rest =>
    if e.addr = element then e :: new_element :: rest
    else e :: link_after element new_element rest

/-- Insert an element into the list at the position after a specified element.
The result `none` is the dereference of a null `element`. -/
def llist_insert_after (malloc : Option Nat) (data : List Nat) (element : Option Nat)
    (list : llist_t) : Option (Int × llist_t) :=
  match list.head with
  | [] => llist_push malloc data list
  | h :: rest =>
    match malloc with
    | none => some (MEM_ERROR, list)
    | some a =>
      let new_element : llist_element_t := { addr := a, data := data.take list.data_width }
      match element with
      | none => none
      | some p =>
        some (LIST_OK, { list with
          head := link_after p new_element (h :: rest),
          tail := if some p = list.tail then some a else list.tail,
          length := list.length + 1 })

/-- Lists obtained from `llist_init` with a positive width by calls of
`llist_push`, `llist_pop`, `llist_remove`, `llist_insert_after`,
`llist_insert_before` and `llist_sort` that return; new nodes get a fresh
address and data of `data_width` bytes, and every `element` argument is a node
of the list. -/
inductive Reachable : llist_t → Prop
  | init (list : llist_t) (data_width : Nat) (list' : llist_t) :
      0 < data_width → llist_init list data_width = (LIST_OK, list') → Reachable list'
  | push (list : llist_t) (malloc : Option Nat) (data : List Nat) (status : Int)
      (list' : llist_t) :
      Reachable list → (∀ a, malloc = some a → a ∉ list.head.map (fun e => e.addr)) →
      data.length = list.data_width →
      llist_push malloc data list = some (status, list') → Reachable list'
  | pop (list : llist_t) (data : List Nat) (status : Int) (out : List Nat) (list' : llist_t) :
      Reachable list → llist_pop data list = (status, out, list') → Reachable list'
  | remove (list : llist_t) (element : Nat) (status : Int) (list' : llist_t) :
      Reachable list → element ∈ list.head.map (fun e => e.addr) →
      llist_remove (some element) list = (status, list') → Reachable list'
  | insert_after (list : llist_t) (malloc : Option Nat) (data : List Nat) (element : Nat)
      (status : Int) (list' : llist_t) :
      Reachable list → (∀ a, malloc = some a → a ∉ list.head.map (fun e => e.addr)) →
      data.length = list.data_width → element ∈ list.head.map (fun e => e.addr) →
      llist_insert_after malloc data (some element) list = some (status, list') →
      Reachable list'
  | insert_before (list : llist_t) (malloc : Option Nat) (data : List Nat) (element : Nat)
      (status : Int) (list' : llist_t) :
      Reachable list → (∀ a, malloc = some a → a ∉ list.head.map (fun e => e.addr)) →
      data.length = list.data_width → element ∈ list.head.map (fun e => e.addr) →
      llist_insert_before malloc data (some element) list = some (status, list') →
      Reachable list'
  | sort (list : llist_t) (fuel : Nat) (compare : List Nat → List Nat → Int) (status : Int)
      (list' : llist_t) :
      Reachable list → llist_sort fuel compare list = some (status, list') → Reachable list'

/-- The empty list of one-byte elements that `llist_init` yields. -/
def empty_list : llist_t :=
  { length := 0, head := [], tail := none, data_width := 1 }

/-- A list of one-byte elements holding 3 and 1 in nodes at addresses 10, 20. -/
def two_node_list : llist_t :=
  { length := 2,
    head := [{ addr := 10, data := [3] }, { addr := 20, data := [1] }],
    tail := some 20, data_width := 1 }

/-- Comparison of two data blocks by their first byte. -/
def compare_first_byte (first_element second_element : List Nat) : Int :=
  (first_element.headD 0 : Int) - (second_element.headD 0 : Int)

end LinkedList

/-! # Dynamic-array stack (`stack.c`) -/

namespace DynStack

/-- No error. -/
def STACK_OK : Int := 0
/-- Memory allocation error. -/
def MEM_ERROR : Int := -1
/-- Stack empty or invalid element width. -/
def SIZE_ERROR : Int := -2

/-- Number of blocks of a new stack, `2 << 10`. -/
def BASE_STACK_LENGTH : Nat := 2 <<< 10

/-- Number of values of `size_t` (64 bits); arithmetic on it wraps modulo this. -/
def SIZE_MOD : Nat := 2 ^ 64

/-- The stack structure; `stack_base` is the byte content of the block it
points to (empty for `NULL`). -/
structure stack_t where
  length : Nat
  element_width : Nat
  allocated_blocks : Nat
  stack_base : List Nat
deriving DecidableEq

/-- Library `memcpy(dest, src, n)`: the first `n` bytes of `dest` are replaced
by the first `n` bytes of `src`. -/
def memcpy (dest src : List Nat) (n : Nat) : List Nat :=
  src.take n ++ dest.drop n

/-- Library `realloc(block, size)` when it succeeds: the block keeps its first
`size` bytes and is extended to `size` bytes (the new bytes, indeterminate in C,
are 0 here). -/
def realloc (block : List Nat) (size : Nat) : List Nat :=
  block.take size ++ List.replicate (size - block.length) 0

/-- The block after `memcpy(block + offset, data, n)`. -/
def memcpy_at (block : List Nat) (offset : Nat) (data : List Nat) (n : Nat) : List Nat :=
  block.take offset ++ memcpy (block.drop offset) data n

/-- Initialise the stack; `malloc_ok` tells whether the allocation succeeds
(the bytes of the new block, indeterminate in C, are 0 here). -/
def stack_init (malloc_ok : Bool) (stack : stack_t) (element_width : Nat) : Int × stack_t :=
  if element_width ≤ 0 then
    (SIZE_ERROR, stack)
  else if malloc_ok then
    (STACK_OK, { length := 0, element_width := element_width,
                 allocated_blocks := BASE_STACK_LENGTH,
                 stack_base := List.replicate ((element_width * BASE_STACK_LENGTH) % SIZE_MOD) 0 })
  else
    (MEM_ERROR, { stack with stack_base := [] })

/-- Push an element; `realloc_ok` tells whether the reallocation, when one is
made, succeeds. -/
def stack_push (realloc_ok : Bool) (stack : stack_t) (data : List Nat) : Int × stack_t :=
  let grown : Option stack_t :=
    if stack.length = stack.allocated_blocks then
      let blocks := (stack.allocated_blocks <<< 1) % SIZE_MOD
      if realloc_ok then
        some { stack with allocated_blocks := blocks,
                          stack_base := realloc stack.stack_base
                            ((blocks * stack.element_width) % SIZE_MOD) }
      else none
    else some stack
  match grown with
  | none =>
    (MEM_ERROR, { stack with allocated_blocks := (stack.allocated_blocks <<< 1) % SIZE_MOD,
                             stack_base := [] })
  | some s =>
    (STACK_OK, { s with
      stack_base := memcpy_at s.stack_base ((s.length * s.element_width) % SIZE_MOD) data
        s.element_width,
      length := (s.length + 1) % SIZE_MOD })

/-- Pop an element into the buffer `location`; `realloc_ok` tells whether the
reallocation, when one is made, succeeds. -/
def stack_pop (realloc_ok : Bool) (stack : stack_t) (location : List Nat) :
    Int × List Nat × stack_t :=
  if stack.length = 0 then
    (SIZE_ERROR, location, stack)
  else
    let shrunk : Option stack_t :=
      if stack.length = stack.allocated_blocks >>> 1 then
        let blocks := stack.allocated_blocks >>> 1
        if realloc_ok then
          some { stack with allocated_blocks := blocks,
                            stack_base := realloc stack.stack_base
                              ((blocks * stack.element_width) % SIZE_MOD) }
        else none
      else some stack
    match shrunk with
    | none =>
      (MEM_ERROR, location, { stack with allocated_blocks := stack.allocated_blocks >>> 1,
                                         stack_base := [] })
    | some s =>
      (STACK_OK,
        memcpy location (s.stack_base.drop (((s.length - 1) * s.element_width) % SIZE_MOD))
          s.element_width,
        { s with length := s.length - 1 })

/-- The stored element sequence: the bytes of the first `length` blocks. -/
def elements (stack : stack_t) : List Nat :=
  stack.stack_base.take (stack.length * stack.element_width)

/-- Stacks obtained from `stack_init` with a positive width by `stack_push`
calls (data of `element_width` bytes) and `stack_pop` calls, the allocations
succeeding and the byte size of the block staying below `2 ^ 64`. -/
inductive Reachable : stack_t → Prop
  | init (stack : stack_t) (element_width : Nat) (stack' : stack_t) :
      0 < element_width → element_width * BASE_STACK_LENGTH < SIZE_MOD →
      stack_init true stack element_width = (STACK_OK, stack') → Reachable stack'
  | push (stack : stack_t) (data : List Nat) (status : Int) (stack' : stack_t) :
      Reachable stack → data.length = stack.element_width →
      (stack.length = stack.allocated_blocks →
        2 * stack.allocated_blocks * stack.element_width < SIZE_MOD) →
      stack_push true stack data = (status, stack') → Reachable stack'
  | pop (stack : stack_t) (location : List Nat) (status : Int) (out : List Nat)
      (stack' : stack_t) :
      Reachable stack → stack_pop true stack location = (status, out, stack') →
      Reachable stack'

/-- Invariant of the reachable stacks. -/
structure StackInv (stack : stack_t) : Prop where
  width_pos : 0 < stack.element_width
  blocks_pos : 1 ≤ stack.allocated_blocks
  length_le : stack.length ≤ stack.allocated_blocks
  no_overflow : stack.allocated_blocks * stack.element_width < SIZE_MOD
  base_length : stack.stack_base.length = stack.allocated_blocks * stack.element_width

/-- The stack of one-byte elements right after `stack_init`. -/
def fresh_stack : stack_t :=
  { length := 0, element_width := 1, allocated_blocks := BASE_STACK_LENGTH,
    stack_base := List.replicate 2048 0 }

end DynStack

/-! # Hash table: proofs -/

namespace HashTable

/-! ## Library facts -/

theorem strcmp_eq_zero_iff (a b : List Nat) : strcmp a b = 0 ↔ a = b := by
  induction a generalizing b with
  | nil => cases b <;> simp [strcmp]
  | cons x s ih =>
    cases b with
    | nil => simp [strcmp]
    | cons y t =>
      by_cases hxy : x = y
      · simp [strcmp, hxy, ih]
      · by_cases hlt : x < y <;> simp [strcmp, hxy, hlt]

theorem strcmp_name_iff (e : entry_t) (k : cstring) :
    strcmp e.name.val k.val = 0 ↔ e.name = k := by
  rw [strcmp_eq_zero_iff]
  exact Subtype.ext_iff.symm

theorem hash_step (hash c : Nat) :
    (((hash <<< 5) % SIZE_MOD + hash) % SIZE_MOD + c) % SIZE_MOD
      = (hash * 33 + c) % SIZE_MOD := by
  have h5 : hash <<< 5 = hash * 32 := by simp [Nat.shiftLeft_eq]
  rw [h5]
  simp only [SIZE_MOD, SIZE_BITS]
  omega

theorem hashstring_loop_eq_foldl (str : List Nat) (hash : Nat) :
    hashstring_loop hash str
      = str.foldl (fun h c => (h * 33 + c) % SIZE_MOD) hash := by
  induction str generalizing hash with
  | nil => rfl
  | cons c str ih => simp only [hashstring_loop, List.foldl_cons, hash_step, ih]

/-! ## Bucket array -/

theorem getD_set_self {α : Type} (l : List α) (i : Nat) (x d : α) (h : i < l.length) :
    (l.set i x).getD i d = x := by
  simp [List.getD_eq_getElem?_getD, List.getElem?_set, h]

theorem getD_set_ne {α : Type} (l : List α) (i j : Nat) (x d : α) (h : i ≠ j) :
    (l.set i x).getD j d = l.getD j d := by
  simp [List.getD_eq_getElem?_getD, List.getElem?_set, h]

theorem getD_replicate_nil {α : Type} (n i : Nat) :
    (List.replicate n ([] : List α)).getD i [] = [] := by
  by_cases h : i < n <;> simp [List.getD_eq_getElem?_getD, List.getElem?_replicate, h]

theorem mem_of_mem_getD {α : Type} (l : List (List α)) (i : Nat) (x : α)
    (h : x ∈ l.getD i []) : l.getD i [] ∈ l := by
  by_cases hi : i < l.length
  · have : l.getD i [] = l[i] := by simp [List.getD_eq_getElem?_getD, hi]
    rw [this]
    exact List.getElem_mem hi
  · have : l.getD i [] = [] := by
      simp [List.getD_eq_getElem?_getD, List.getElem?_eq_none (Nat.le_of_not_lt hi)]
    rw [this] at h
    cases h

theorem exists_getD_of_mem {α : Type} (l : List (List α)) (c : List α) (h : c ∈ l) :
    ∃ i, i < l.length ∧ l.getD i [] = c := by
  obtain ⟨i, hi, rfl⟩ := List.getElem_of_mem h
  exact ⟨i, hi, by simp [List.getD_eq_getElem?_getD, hi]⟩

/-! ## Chains -/

theorem htlookup_chain_eq (w : Nat) (k : cstring) (value : Option (List Nat))
    (chain : List entry_t) :
    htlookup_chain w k value chain
      = match first_named k chain with
        | some e => (TABLE_OK, value.map (fun buf => memcpy buf e.data w))
        | none => (INVALID_ENTRY, value) := by
  induction chain with
  | nil => rfl
  | cons e rest ih =>
    by_cases h : e.name = k
    · have h0 : strcmp e.name.val k.val = 0 := (strcmp_name_iff e k).2 h
      rw [htlookup_chain, if_pos h0]
      simp only [first_named, List.find?_cons, h, decide_True]
    · have h0 : strcmp e.name.val k.val ≠ 0 := fun hc => h ((strcmp_name_iff e k).1 hc)
      rw [htlookup_chain, if_neg h0, ih]
      simp only [first_named, List.find?_cons, h, decide_False]

theorem first_named_cons (k : cstring) (e : entry_t) (rest : List entry_t) :
    first_named k (e :: rest) = if e.name = k then some e else first_named k rest := by
  by_cases h : e.name = k <;> simp [first_named, List.find?_cons, h]

theorem htinsert_chain_mem (t : table_t) (ok : Bool) (k : cstring) (d : List Nat)
    (cur : entry_t) (rest : List entry_t) (e' : entry_t)
    (h : e' ∈ (htinsert_chain t ok k d cur rest).2) :
    e' ∈ cur :: rest ∨
      (e'.name = k ∧ (e'.data = d.take t.entry_width ∨
        ∃ e ∈ cur :: rest, e'.data = memcpy e.data d t.entry_width)) := by
  induction rest generalizing cur with
  | nil =>
    cases ok
    · simp [htinsert_chain] at h
      simp [h]
    · simp [htinsert_chain] at h
      rcases h with h | h
      · simp [h]
      · right
        subst h
        exact ⟨rfl, Or.inl rfl⟩
  | cons nxt rest ih =>
    by_cases h0 : strcmp cur.name.val k.val = 0
    · rw [htinsert_chain, if_pos h0] at h
      rcases List.mem_cons.1 h with h | h
      · right
        subst h
        exact ⟨(strcmp_name_iff cur k).1 h0, Or.inr ⟨cur, List.mem_cons_self _ _, rfl⟩⟩
      · exact Or.inl (List.mem_cons_of_mem _ h)
    · rw [htinsert_chain, if_neg h0] at h
      rcases List.mem_cons.1 h with h | h
      · exact Or.inl (h ▸ List.mem_cons_self _ _)
      · rcases ih nxt h with h | ⟨hn, hd⟩
        · exact Or.inl (List.mem_cons_of_mem _ h)
        · right
          refine ⟨hn, ?_⟩
          rcases hd with hd | ⟨e, he, hd⟩
          · exact Or.inl hd
          · exact Or.inr ⟨e, List.mem_cons_of_mem _ he, hd⟩

theorem htinsert_bucket_mem (t : table_t) (ok : Bool) (k : cstring) (d : List Nat)
    (chain : List entry_t) (e' : entry_t)
    (h : e' ∈ (htinsert_bucket t ok k d chain).2) :
    e' ∈ chain ∨
      (e'.name = k ∧ (e'.data = d.take t.entry_width ∨
        ∃ e ∈ chain, e'.data = memcpy e.data d t.entry_width)) := by
  cases chain with
  | nil =>
    cases ok
    · simp [htinsert_bucket] at h
    · simp [htinsert_bucket] at h
      right
      subst h
      exact ⟨rfl, Or.inl rfl⟩
  | cons cur rest => exact htinsert_chain_mem t ok k d cur rest e' h

theorem htinsert_chain_first_named (t : table_t) (ok : Bool) (k k' : cstring) (d : List Nat)
    (cur : entry_t) (rest : List entry_t) (hk : k ≠ k') :
    first_named k' (htinsert_chain t ok k d cur rest).2 = first_named k' (cur :: rest) := by
  induction rest generalizing cur with
  | nil =>
    cases ok
    · simp [htinsert_chain]
    · simp [htinsert_chain, first_named_cons, new_entry, hk]
  | cons nxt rest ih =>
    by_cases h0 : strcmp cur.name.val k.val = 0
    · have hc : cur.name = k := (strcmp_name_iff cur k).1 h0
      have hc' : ¬ cur.name = k' := fun h => hk (hc.symm.trans h)
      rw [htinsert_chain, if_pos h0]
      have hu : ¬ (update_entry t cur d).name = k' := hc'
      rw [first_named_cons k' (update_entry t cur d), first_named_cons k' cur, if_neg hc',
        if_neg hu]
    · rw [htinsert_chain, if_neg h0]
      simp only [first_named_cons k' cur, ih nxt]

theorem htinsert_bucket_first_named (t : table_t) (ok : Bool) (k k' : cstring) (d : List Nat)
    (chain : List entry_t) (hk : k ≠ k') :
    first_named k' (htinsert_bucket t ok k d chain).2 = first_named k' chain := by
  cases chain with
  | nil =>
    cases ok
    · simp [htinsert_bucket]
    · simp [htinsert_bucket, first_named_cons, new_entry, hk]
  | cons cur rest => exact htinsert_chain_first_named t ok k k' d cur rest hk

theorem htinsert_chain_append (t : table_t) (k : cstring) (d : List Nat)
    (cur : entry_t) (rest : List entry_t) (h : ∀ e ∈ cur :: rest, e.name ≠ k) :
    htinsert_chain t true k d cur rest = (TABLE_OK, cur :: rest ++ [new_entry t k d]) := by
  induction rest generalizing cur with
  | nil => simp [htinsert_chain]
  | cons nxt rest ih =>
    have h0 : strcmp cur.name.val k.val ≠ 0 :=
      fun hc => h cur (List.mem_cons_self _ _) ((strcmp_name_iff cur k).1 hc)
    rw [htinsert_chain, if_neg h0, ih nxt (fun e he => h e (List.mem_cons_of_mem _ he))]
    rfl

theorem htinsert_bucket_append (t : table_t) (k : cstring) (d : List Nat)
    (chain : List entry_t) (h : ∀ e ∈ chain, e.name ≠ k) :
    htinsert_bucket t true k d chain = (TABLE_OK, chain ++ [new_entry t k d]) := by
  cases chain with
  | nil => simp [htinsert_bucket]
  | cons cur rest => exact htinsert_chain_append t k d cur rest h

theorem htdelete_chain_eq (k : cstring) (cur : entry_t) (rest : List entry_t) :
    htdelete_chain k cur rest
      = match first_named k (cur :: rest) with
        | none => none
        | some _ => some ((cur :: rest).eraseP (fun e => decide (e.name = k))) := by
  induction rest generalizing cur with
  | nil =>
    by_cases h : cur.name = k
    · have h0 : strcmp cur.name.val k.val = 0 := (strcmp_name_iff cur k).2 h
      rw [htdelete_chain, if_neg (not_not.2 h0), first_named_cons, if_pos h]
      simp only [List.eraseP_cons, h, decide_True, cond_true]
    · have h0 : strcmp cur.name.val k.val ≠ 0 := fun hc => h ((strcmp_name_iff cur k).1 hc)
      rw [htdelete_chain, if_pos h0, first_named_cons, if_neg h]
      rfl
  | cons nxt rest ih =>
    by_cases h : cur.name = k
    · have h0 : strcmp cur.name.val k.val = 0 := (strcmp_name_iff cur k).2 h
      rw [htdelete_chain, if_neg (not_not.2 h0), first_named_cons, if_pos h]
      simp only [List.eraseP_cons, h, decide_True, cond_true]
    · have h0 : strcmp cur.name.val k.val ≠ 0 := fun hc => h ((strcmp_name_iff cur k).1 hc)
      rw [htdelete_chain, if_pos h0, ih nxt, first_named_cons k cur, if_neg h]
      cases hf : first_named k (nxt :: rest) with
      | none => rfl
      | some e => simp [List.eraseP_cons, h]

theorem first_named_eraseP (k k' : cstring) (chain : List entry_t) (hk : k ≠ k') :
    first_named k' (chain.eraseP (fun e => decide (e.name = k))) = first_named k' chain := by
  induction chain with
  | nil => rfl
  | cons e rest ih =>
    by_cases h : e.name = k
    · have h' : ¬ e.name = k' := fun hc => hk (h.symm.trans hc)
      rw [first_named_cons, if_neg h']
      simp only [List.eraseP_cons, h, decide_True, cond_true]
    · rw [first_named_cons]
      simp only [List.eraseP_cons, h, decide_False, cond_false]
      rw [first_named_cons, ih]

/-! ## Tables -/

theorem get_key_lt (t : table_t) (k : cstring) (h : WF t) :
    get_key t k < t.buckets.length := by
  rw [h.length_eq]
  exact Nat.mod_lt _ h.count_pos

theorem htinsert_eq (ok : Bool) (t : table_t) (k : cstring) (d : List Nat) (h : WF t) :
    htinsert ok t k d
      = ((htinsert_bucket t ok k d (chain_at t (get_key t k))).1,
          { t with buckets := (t.buckets.set (get_key t k)
              (htinsert_bucket t ok k d (chain_at t (get_key t k))).2) }) := by
  have hlt := get_key_lt t k h
  cases hc : t.buckets.getD (get_key t k) [] with
  | nil =>
    cases ok
    · have hset : t.buckets.set (get_key t k) [] = t.buckets := by
        apply List.ext_getElem (by simp)
        intro i h1 h2
        by_cases hi : get_key t k = i
        · subst hi
          rw [List.getElem_set_self]
          rw [List.getD_eq_getElem?_getD, List.getElem?_eq_getElem hlt] at hc
          exact hc.symm
        · rw [List.getElem_set_ne hi]
      simp only [htinsert, chain_at, hc, htinsert_bucket, Bool.false_eq_true, if_false, hset]
    · simp only [htinsert, chain_at, hc, htinsert_bucket, if_true]
  | cons cur rest => simp only [htinsert, chain_at, hc, htinsert_bucket]

theorem htinsert_chain_at (ok : Bool) (t : table_t) (k : cstring) (d : List Nat) (h : WF t)
    (i : Nat) :
    chain_at (htinsert ok t k d).2 i
      = if i = get_key t k then (htinsert_bucket t ok k d (chain_at t (get_key t k))).2
        else chain_at t i := by
  rw [htinsert_eq ok t k d h]
  by_cases hi : i = get_key t k
  · subst hi
    simp only [chain_at, if_true]
    exact getD_set_self _ _ _ _ (get_key_lt t k h)
  · simp only [chain_at, if_neg hi]
    exact getD_set_ne _ _ _ _ _ (Ne.symm hi)

theorem htdelete_eq (t : table_t) (k : cstring) :
    htdelete t k
      = match chain_at t (get_key t k) with
        | [] => none
        | cur :: rest =>
          match first_named k (cur :: rest) with
          | none => some (INVALID_ENTRY, t)
          | some _ => some (TABLE_OK, { t with buckets := (t.buckets.set (get_key t k)
              ((cur :: rest).eraseP (fun e => decide (e.name = k)))) }) := by
  cases hc : t.buckets.getD (get_key t k) [] with
  | nil => simp only [htdelete, chain_at, hc]
  | cons cur rest =>
    simp only [htdelete, chain_at, hc, htdelete_chain_eq]
    cases first_named k (cur :: rest) <;> rfl

theorem htdelete_some (t : table_t) (k : cstring) (status : Int) (t' : table_t)
    (h : htdelete t k = some (status, t')) :
    (status = INVALID_ENTRY ∧ t' = t ∧ first_named k (chain_at t (get_key t k)) = none
        ∧ chain_at t (get_key t k) ≠ []) ∨
    (status = TABLE_OK ∧ (first_named k (chain_at t (get_key t k))).isSome = true ∧
      t' = { t with buckets := (t.buckets.set (get_key t k)
        ((chain_at t (get_key t k)).eraseP (fun e => decide (e.name = k)))) }) := by
  rw [htdelete_eq] at h
  cases hc : chain_at t (get_key t k) with
  | nil => simp [hc] at h
  | cons cur rest =>
    rw [hc] at h
    cases hf : first_named k (cur :: rest) with
    | none =>
      simp only [hf, Option.some.injEq, Prod.mk.injEq] at h
      exact Or.inl ⟨h.1.symm, h.2.symm, rfl, by simp⟩
    | some e =>
      simp only [hf, Option.some.injEq, Prod.mk.injEq] at h
      exact Or.inr ⟨h.1.symm, rfl, h.2.symm⟩

theorem htdelete_chain_at (t : table_t) (k : cstring) (t' : table_t) (h : WF t)
    (hd : htdelete t k = some (TABLE_OK, t')) (i : Nat) :
    chain_at t' i
      = if i = get_key t k then
          (chain_at t (get_key t k)).eraseP (fun e => decide (e.name = k))
        else chain_at t i := by
  rcases htdelete_some t k _ t' hd with ⟨h1, _⟩ | ⟨_, _, h3⟩
  · exact absurd h1 (by decide)
  · subst h3
    by_cases hi : i = get_key t k
    · subst hi
      simp only [chain_at, if_true]
      exact getD_set_self _ _ _ _ (get_key_lt t k h)
    · simp only [chain_at, if_neg hi]
      exact getD_set_ne _ _ _ _ _ (Ne.symm hi)

theorem Inv_init (entry_width bucket_count : Nat) (hn : 0 < bucket_count) :
    Inv { buckets := List.replicate bucket_count [], bucket_count := bucket_count,
          entry_width := entry_width } where
  toWF := ⟨by simp, hn⟩
  placed := by
    intro i e he
    simp [chain_at, getD_replicate_nil] at he
  sized := by
    intro i e he
    simp [chain_at, getD_replicate_nil] at he

theorem memcpy_length (dest src : List Nat) (n : Nat) (hd : dest.length = n)
    (hs : src.length = n) : (memcpy dest src n).length = n := by
  simp [memcpy, hd, hs]

theorem Inv_insert (ok : Bool) (t : table_t) (k : cstring) (d : List Nat) (h : Inv t)
    (hd : d.length = t.entry_width) : Inv (htinsert ok t k d).2 := by
  have hbc : (htinsert ok t k d).2.bucket_count = t.bucket_count := by
    rw [htinsert_eq ok t k d h.toWF]
  have hw : (htinsert ok t k d).2.entry_width = t.entry_width := by
    rw [htinsert_eq ok t k d h.toWF]
  have hmem : ∀ i, ∀ e ∈ chain_at (htinsert ok t k d).2 i,
      e ∈ chain_at t i ∨ (i = get_key t k ∧ e.name = k ∧ e.data.length = t.entry_width) := by
    intro i e he
    rw [htinsert_chain_at ok t k d h.toWF] at he
    by_cases hi : i = get_key t k
    · rw [if_pos hi] at he
      rcases htinsert_bucket_mem t ok k d _ e he with he | ⟨hn, hdat⟩
      · exact Or.inl (hi ▸ he)
      · refine Or.inr ⟨hi, hn, ?_⟩
        rcases hdat with hdat | ⟨e0, he0, hdat⟩
        · rw [hdat]
          simp [hd]
        · rw [hdat]
          exact memcpy_length _ _ _ (h.sized _ e0 he0) hd
    · rw [if_neg hi] at he
      exact Or.inl he
  refine ⟨⟨?_, ?_⟩, ?_, ?_⟩
  · rw [hbc, htinsert_eq ok t k d h.toWF]
    simp [h.length_eq]
  · rw [hbc]
    exact h.count_pos
  · intro i e he
    have hg : get_key (htinsert ok t k d).2 e.name = get_key t e.name := by
      simp only [get_key, hbc]
    rw [hg]
    rcases hmem i e he with he | ⟨hi, hn, _⟩
    · exact h.placed i e he
    · rw [hn, hi]
  · intro i e he
    rw [hw]
    rcases hmem i e he with he | ⟨_, _, hl⟩
    · exact h.sized i e he
    · exact hl

theorem Inv_delete (t : table_t) (k : cstring) (status : Int) (t' : table_t) (h : Inv t)
    (hd : htdelete t k = some (status, t')) : Inv t' := by
  rcases htdelete_some t k status t' hd with ⟨_, h2, _⟩ | ⟨h1, _, h3⟩
  · rw [h2]
    exact h
  · subst h1
    have hmem : ∀ i, ∀ e ∈ chain_at t' i, e ∈ chain_at t i := by
      intro i e he
      rw [htdelete_chain_at t k t' h.toWF hd] at he
      by_cases hi : i = get_key t k
      · rw [if_pos hi] at he
        exact hi ▸ List.mem_of_mem_eraseP he
      · rw [if_neg hi] at he
        exact he
    have hbc : t'.bucket_count = t.bucket_count := by rw [h3]
    have hw : t'.entry_width = t.entry_width := by rw [h3]
    refine ⟨⟨?_, ?_⟩, ?_, ?_⟩
    · rw [hbc, h3]
      simp [h.length_eq]
    · rw [hbc]
      exact h.count_pos
    · intro i e he
      have hg : get_key t' e.name = get_key t e.name := by simp only [get_key, hbc]
      rw [hg]
      exact h.placed i e (hmem i e he)
    · intro i e he
      rw [hw]
      exact h.sized i e (hmem i e he)

theorem Reachable.inv {t : table_t} (h : Reachable t) : Inv t := by
  induction h with
  | init w n t hn hinit =>
    simp only [htinit, if_true, Prod.mk.injEq, Option.some.injEq, true_and] at hinit
    rw [← hinit]
    exact Inv_init w n hn
  | insert ok t k d _ hd ih => exact Inv_insert ok t k d ih hd
  | delete t k s t' _ hd ih => exact Inv_delete t k s t' ih hd

theorem htinit_eq (entry_width bucket_count : Nat) :
    htinit true entry_width bucket_count
      = (TABLE_OK, some (empty_table entry_width bucket_count)) := rfl

theorem htinit_some {entry_width bucket_count : Nat} {t : table_t}
    (h : htinit true entry_width bucket_count = (TABLE_OK, some t)) :
    t = empty_table entry_width bucket_count := by
  simp only [htinit, if_true, Prod.mk.injEq, Option.some.injEq, true_and] at h
  exact h.symm

theorem Reachable_empty (entry_width bucket_count : Nat) (hn : 0 < bucket_count) :
    Reachable (empty_table entry_width bucket_count) :=
  Reachable.init entry_width bucket_count _ hn rfl

theorem Reachable_foo_table : Reachable foo_table :=
  Reachable.insert true _ key_foo [12, 0, 0, 0] (Reachable_empty 4 1024 (by decide)) rfl

theorem Reachable_foo_twice_table : Reachable foo_twice_table :=
  Reachable.insert true _ key_foo [176, 1, 0, 0] Reachable_foo_table rfl

/-! ## Insert of a key that is the last entry of its chain -/

/-- C1, the code at a failing input: the table holding `"foo" -> 12` is reachable
(`htinit` with 1024 buckets, then one `htinsert`); on it `htinsert("foo", 432)`
returns `TABLE_OK`, yet the `htlookup("foo")` that follows returns `TABLE_OK`
with the old value 12, not 432. -/
theorem htinsert_lookup_returns_old_value :
    Reachable foo_table ∧
    (htinsert true foo_table key_foo [176, 1, 0, 0]).1 = TABLE_OK ∧
    htlookup (htinsert true foo_table key_foo [176, 1, 0, 0]).2 key_foo (some [0, 0, 0, 0])
      = (TABLE_OK, some [12, 0, 0, 0]) :=
  ⟨Reachable_foo_table, by decide, by decide⟩

/-- C2, the code at a failing input: from the freshly initialised table,
`htinsert("foo", 12)` then `htinsert("foo", 432)` leaves `htlookup("foo")`
returning 12, and the second insert raises the number of entries from 1 to 2
(the bucket of `"foo"` holds two entries named `"foo"`). -/
theorem htinsert_twice_adds_second_entry :
    Reachable (empty_table 4 1024) ∧
    htlookup
        (htinsert true (htinsert true (empty_table 4 1024) key_foo [12, 0, 0, 0]).2
          key_foo [176, 1, 0, 0]).2
        key_foo (some [0, 0, 0, 0])
      = (TABLE_OK, some [12, 0, 0, 0]) ∧
    entry_count (htinsert true (empty_table 4 1024) key_foo [12, 0, 0, 0]).2 = 1 ∧
    entry_count
        (htinsert true (htinsert true (empty_table 4 1024) key_foo [12, 0, 0, 0]).2
          key_foo [176, 1, 0, 0]).2 = 2 :=
  ⟨Reachable_empty 4 1024 (by decide), by decide, by decide, by decide⟩

/-- C3, the code at a failing input: on the reachable table holding
`"foo" -> 12`, `htinsert("foo", 432)` followed by `htdelete("foo")` returns
`TABLE_OK`, and the `htlookup("foo")` after it still returns `TABLE_OK` (with
432) instead of `INVALID_ENTRY`. -/
theorem htinsert_htdelete_lookup_still_found :
    Reachable foo_table ∧
    (htdelete (htinsert true foo_table key_foo [176, 1, 0, 0]).2 key_foo).map
        (fun r => (r.1, htlookup r.2 key_foo (some [0, 0, 0, 0])))
      = some (TABLE_OK, (TABLE_OK, some [176, 1, 0, 0])) :=
  ⟨Reachable_foo_table, by decide⟩

/-- C4, the code at a failing input: the table reached by `htinit`,
`htinsert("foo", 12)`, `htinsert("foo", 432)` does not have unique keys: bucket
905 holds two entries named `"foo"`. -/
theorem reachable_table_with_duplicate_key :
    Reachable foo_twice_table ∧
    ¬ unique_keys foo_twice_table ∧
    chain_at foo_twice_table 905
      = [{ data := [12, 0, 0, 0], name := key_foo },
         { data := [176, 1, 0, 0], name := key_foo }] :=
  ⟨Reachable_foo_twice_table, by decide, by decide⟩

/-! ## Delete on an empty bucket -/

/-- C5, the code at a failing input: on the freshly initialised table (1024
buckets, all empty) `htdelete("foo")` does not return `INVALID_ENTRY`: it
dereferences the null head of bucket 905. -/
theorem htdelete_empty_bucket_faults :
    htinit true 4 1024 = (TABLE_OK, some (empty_table 4 1024)) ∧
    chain_at (empty_table 4 1024) (get_key (empty_table 4 1024) key_foo) = [] ∧
    htdelete (empty_table 4 1024) key_foo = none :=
  ⟨rfl, by decide, by decide⟩

/-! ## Hash function -/

/-- C10: `hashstring` is the left fold `h0 = 5381`, `h(i+1) = (h(i) * 33 + c(i+1)) mod 2^64`
over the bytes of the key, and for a positive bucket count `get_key` is
`hashstring` modulo `bucket_count`, lies below `bucket_count`, and is the same
for tables with the same bucket count. -/
theorem hashstring_get_key_spec (key : cstring) :
    hashstring key = key.val.foldl (fun h c => (h * 33 + c) % 2 ^ 64) 5381 ∧
    ∀ table : table_t, 0 < table.bucket_count →
      get_key table key = hashstring key % table.bucket_count ∧
      get_key table key < table.bucket_count ∧
      ∀ table' : table_t, table'.bucket_count = table.bucket_count →
        get_key table' key = get_key table key := by
  refine ⟨?_, ?_⟩
  · exact hashstring_loop_eq_foldl key.val 5381
  · intro table hpos
    refine ⟨rfl, Nat.mod_lt _ hpos, ?_⟩
    intro table' h
    simp only [get_key, h]

/-- C10 at `"foo"` and a table of 1024 buckets: the hash is 193491849 and the
bucket is 905. -/
theorem hashstring_get_key_spec_witness :
    0 < (empty_table 4 1024).bucket_count ∧
    hashstring key_foo = 193491849 ∧
    get_key (empty_table 4 1024) key_foo = 905 ∧
    get_key (empty_table 4 1024) key_foo < (empty_table 4 1024).bucket_count := by
  have h := hashstring_get_key_spec key_foo
  have h2 := h.2 (empty_table 4 1024) (by decide)
  exact ⟨by decide, by decide, by decide, h2.2.1⟩

/-! ## Lookup -/

theorem htlookup_eq (t : table_t) (k : cstring) (value : Option (List Nat)) :
    htlookup t k value
      = match first_named k (chain_at t (get_key t k)) with
        | some e => (TABLE_OK, value.map (fun buf => memcpy buf e.data t.entry_width))
        | none => (INVALID_ENTRY, value) :=
  htlookup_chain_eq t.entry_width k value _

theorem first_named_some {k : cstring} {chain : List entry_t} {e : entry_t}
    (h : first_named k chain = some e) : e ∈ chain ∧ e.name = k := by
  refine ⟨List.mem_of_find?_eq_some h, ?_⟩
  have := List.find?_some h
  simpa using this

theorem first_named_eq_none {k : cstring} {chain : List entry_t} :
    first_named k chain = none ↔ ∀ e ∈ chain, e.name ≠ k := by
  simp [first_named, List.find?_eq_none]

theorem memcpy_full (dest src : List Nat) (n : Nat) (hd : dest.length = n)
    (hs : src.length = n) : memcpy dest src n = src := by
  simp [memcpy, ← hd, ← hs, hd.trans hs.symm]

theorem stored_iff_first_named (t : table_t) (h : Inv t) (k : cstring) :
    (∃ chain ∈ t.buckets, ∃ e ∈ chain, e.name = k)
      ↔ ∃ e, first_named k (chain_at t (get_key t k)) = some e := by
  constructor
  · rintro ⟨chain, hc, e, he, hn⟩
    obtain ⟨i, _, hi⟩ := exists_getD_of_mem t.buckets chain hc
    have hmem : e ∈ chain_at t i := by
      simp only [chain_at, hi]
      exact he
    have hplace := h.placed i e hmem
    rw [hn] at hplace
    rw [hplace]
    cases hf : first_named k (chain_at t i) with
    | some e' => exact ⟨e', rfl⟩
    | none => exact absurd hn (first_named_eq_none.1 hf e hmem)
  · rintro ⟨e, hf⟩
    obtain ⟨hmem, hn⟩ := first_named_some hf
    exact ⟨_, mem_of_mem_getD t.buckets _ e hmem, e, hmem, hn⟩

/-- C6: on a reachable table, `htlookup(k, out)` returns `TABLE_OK` exactly when
some entry anywhere in the table is named `k` and `INVALID_ENTRY` otherwise; the
status is the one returned for a null `out`; and when `out` is a buffer of
`entry_width` bytes and the status is `TABLE_OK`, the buffer receives the value
of the first entry named `k` in the chain of bucket `get_key(k)`. -/
theorem htlookup_found_iff_stored (t : table_t) (hr : Reachable t) (k : cstring)
    (out : Option (List Nat)) :
    ((htlookup t k out).1 = TABLE_OK ↔ ∃ chain ∈ t.buckets, ∃ e ∈ chain, e.name = k) ∧
    ((¬ ∃ chain ∈ t.buckets, ∃ e ∈ chain, e.name = k) →
      (htlookup t k out).1 = INVALID_ENTRY) ∧
    (htlookup t k out).1 = (htlookup t k none).1 ∧
    (∀ buf, out = some buf → buf.length = t.entry_width → (htlookup t k out).1 = TABLE_OK →
      ∃ e, first_named k (chain_at t (get_key t k)) = some e ∧
        (htlookup t k out).2 = some e.data) := by
  have hinv := hr.inv
  rw [stored_iff_first_named t hinv k, htlookup_eq t k out, htlookup_eq t k none]
  cases hf : first_named k (chain_at t (get_key t k)) with
  | none =>
    refine ⟨?_, fun _ => rfl, rfl, ?_⟩
    · constructor
      · intro h
        exact absurd (show INVALID_ENTRY = TABLE_OK from h) (by decide)
      · rintro ⟨e, he⟩
        cases he
    · intro buf _ _ h
      exact absurd (show INVALID_ENTRY = TABLE_OK from h) (by decide)
  | some e =>
    refine ⟨⟨fun _ => ⟨e, rfl⟩, fun _ => rfl⟩, ?_, rfl, ?_⟩
    · intro h
      exact absurd ⟨e, rfl⟩ h
    · intro buf hout hlen _
      refine ⟨e, rfl, ?_⟩
      subst hout
      have hsz := hinv.sized _ e (first_named_some hf).1
      simp only [Option.map_some', memcpy_full buf e.data t.entry_width hlen hsz]

/-- C6 on the reachable table holding `"foo" -> 12`: `htlookup("foo")` finds the
entry and copies 12 into the buffer. -/
theorem htlookup_found_iff_stored_witness :
    Reachable foo_table ∧
    (htlookup foo_table key_foo (some [0, 0, 0, 0])).1 = TABLE_OK ∧
    (htlookup foo_table key_foo (some [0, 0, 0, 0])).1
      = (htlookup foo_table key_foo none).1 ∧
    ∃ e, first_named key_foo (chain_at foo_table (get_key foo_table key_foo)) = some e ∧
      (htlookup foo_table key_foo (some [0, 0, 0, 0])).2 = some e.data := by
  have h := htlookup_found_iff_stored foo_table Reachable_foo_table key_foo
    (some [0, 0, 0, 0])
  have hok : (htlookup foo_table key_foo (some [0, 0, 0, 0])).1 = TABLE_OK := by decide
  exact ⟨Reachable_foo_table, hok, h.2.2.1, h.2.2.2 [0, 0, 0, 0] rfl rfl hok⟩

/-! ## Tables given by their pairs -/

theorem htinsert_entry_width (ok : Bool) (t : table_t) (k : cstring) (d : List Nat) :
    (htinsert ok t k d).2.entry_width = t.entry_width := by
  cases hc : t.buckets.getD (get_key t k) [] with
  | nil => cases ok <;> simp only [htinsert, hc, Bool.false_eq_true, if_false, if_true]
  | cons cur rest => simp only [htinsert, hc]

theorem table_ext (t t' : table_t) (hl : t.buckets.length = t'.buckets.length)
    (hb : t.bucket_count = t'.bucket_count) (hw : t.entry_width = t'.entry_width)
    (hc : ∀ i, chain_at t i = chain_at t' i) : t = t' := by
  cases t with
  | mk b n w =>
    cases t' with
    | mk b' n' w' =>
      simp only at hl hb hw
      subst hb hw
      have : b = b' := by
        apply List.ext_getElem hl
        intro i h1 h2
        have := hc i
        simpa [chain_at, List.getD_eq_getElem?_getD, h1, h2] using this
      rw [this]

theorem chain_at_table_of (w n : Nat) (kvs : List (cstring × List Nat)) (i : Nat) :
    chain_at (table_of w n kvs) i
      = if i < n then
          (kvs.filter (fun kv => decide (hashstring kv.1 % n = i))).map
            (fun kv => { data := kv.2.take w, name := kv.1 })
        else [] := by
  by_cases hi : i < n
  · simp [chain_at, table_of, List.getD_eq_getElem?_getD, hi]
  · have hnone : (List.range n)[i]? = none :=
      List.getElem?_eq_none (by simpa using Nat.le_of_not_lt hi)
    simp [chain_at, table_of, List.getD_eq_getElem?_getD, hi, hnone]

theorem WF_table_of (w n : Nat) (kvs : List (cstring × List Nat)) (hn : 0 < n) :
    WF (table_of w n kvs) :=
  ⟨by simp [table_of], hn⟩

theorem table_of_nil (w n : Nat) : table_of w n [] = empty_table w n := by
  apply table_ext
  · simp [table_of, empty_table]
  · rfl
  · rfl
  · intro i
    rw [chain_at_table_of]
    simp [chain_at, empty_table, getD_replicate_nil]

theorem htinsert_table_of (w n : Nat) (pre : List (cstring × List Nat)) (k : cstring)
    (v : List Nat) (hn : 0 < n) (hk : k ∉ pre.map Prod.fst) :
    htinsert true (table_of w n pre) k v = (TABLE_OK, table_of w n (pre ++ [(k, v)])) := by
  have hwf := WF_table_of w n pre hn
  have hb : get_key (table_of w n pre) k = hashstring k % n := rfl
  have hlt : hashstring k % n < n := Nat.mod_lt _ hn
  have hfresh : ∀ e ∈ chain_at (table_of w n pre) (get_key (table_of w n pre) k),
      e.name ≠ k := by
    intro e he hname
    rw [chain_at_table_of, hb, if_pos hlt] at he
    obtain ⟨kv, hkv, rfl⟩ := List.mem_map.1 he
    exact hk (List.mem_map.2 ⟨kv, (List.mem_filter.1 hkv).1, hname⟩)
  have happ := htinsert_bucket_append (table_of w n pre) k v _ hfresh
  apply Prod.ext
  · rw [htinsert_eq true _ k v hwf, happ]
  · apply table_ext
    · rw [htinsert_eq true _ k v hwf]
      simp [table_of]
    · rw [htinsert_eq true _ k v hwf]
      rfl
    · rw [htinsert_eq true _ k v hwf]
      rfl
    · intro i
      rw [htinsert_chain_at true _ k v hwf, happ, hb]
      simp only [chain_at_table_of, if_pos hlt]
      by_cases hi : i = hashstring k % n
      · subst hi
        simp [if_pos hlt, List.filter_append, new_entry, table_of]
      · rw [if_neg hi]
        have hi' : ¬ hashstring k % n = i := fun h => hi h.symm
        by_cases hin : i < n
        · simp [hin, List.filter_append, hi']
        · simp [hin]

theorem insert_all_table_of (w n : Nat) (hn : 0 < n) (kvs pre : List (cstring × List Nat))
    (hnd : ((pre ++ kvs).map Prod.fst).Nodup) :
    insert_all (table_of w n pre) kvs = table_of w n (pre ++ kvs) := by
  induction kvs generalizing pre with
  | nil => simp [insert_all]
  | cons kv rest ih =>
    have hnd' : ((pre ++ [kv] ++ rest).map Prod.fst).Nodup := by
      simpa [List.append_assoc] using hnd
    have hk : kv.1 ∉ pre.map Prod.fst := by
      intro hmem
      rw [List.map_append, List.nodup_append] at hnd
      exact hnd.2.2 hmem (by simp)
    rw [insert_all, htinsert_table_of w n pre kv.1 kv.2 hn hk, ih (pre ++ [kv]) hnd']
    simp [List.append_assoc]

theorem htdelete_table_of_head (w n : Nat) (hn : 0 < n) (k : cstring) (v : List Nat)
    (rest : List (cstring × List Nat)) :
    htdelete (table_of w n ((k, v) :: rest)) k = some (TABLE_OK, table_of w n rest) := by
  have hwf := WF_table_of w n ((k, v) :: rest) hn
  have hb : get_key (table_of w n ((k, v) :: rest)) k = hashstring k % n := rfl
  have hlt : hashstring k % n < n := Nat.mod_lt _ hn
  have hchain : chain_at (table_of w n ((k, v) :: rest)) (hashstring k % n)
      = { data := v.take w, name := k } ::
          (rest.filter (fun kv => decide (hashstring kv.1 % n = hashstring k % n))).map
            (fun kv => { data := kv.2.take w, name := kv.1 }) := by
    rw [chain_at_table_of, if_pos hlt]
    simp [List.filter_cons]
  have hdel : ∃ t', htdelete (table_of w n ((k, v) :: rest)) k = some (TABLE_OK, t') := by
    rw [htdelete_eq, hb, hchain]
    simp only [first_named_cons, if_true]
    exact ⟨_, rfl⟩
  obtain ⟨t', ht'⟩ := hdel
  rw [ht']
  have hfields := htdelete_some _ k _ t' ht'
  rcases hfields with ⟨h1, _⟩ | ⟨_, _, h3⟩
  · exact absurd h1 (by decide)
  · have heq : t' = table_of w n rest := by
      apply table_ext
      · rw [h3]
        simp [table_of]
      · rw [h3]
        rfl
      · rw [h3]
        rfl
      · intro i
        rw [htdelete_chain_at _ k t' hwf ht' i, hb, hchain]
        simp only [chain_at_table_of]
        by_cases hi : i = hashstring k % n
        · subst hi
          simp [if_pos hlt, List.eraseP_cons]
        · rw [if_neg hi]
          have hi' : ¬ hashstring k % n = i := fun h => hi h.symm
          simp [List.filter_cons, hi']
    rw [heq]

theorem delete_all_table_of (w n : Nat) (hn : 0 < n) (kvs : List (cstring × List Nat)) :
    delete_all (table_of w n kvs) (kvs.map Prod.fst)
      = some (List.replicate kvs.length TABLE_OK, table_of w n []) := by
  induction kvs with
  | nil => rfl
  | cons kv rest ih =>
    obtain ⟨k, v⟩ := kv
    simp only [List.map_cons, delete_all, htdelete_table_of_head w n hn k v rest, ih,
      Option.map_some', List.length_cons, List.replicate_succ]

theorem Reachable_insert_all (t : table_t) (kvs : List (cstring × List Nat))
    (hr : Reachable t) (hlen : ∀ kv ∈ kvs, kv.2.length = t.entry_width) :
    Reachable (insert_all t kvs) := by
  induction kvs generalizing t with
  | nil => exact hr
  | cons kv rest ih =>
    rw [insert_all]
    apply ih
    · exact Reachable.insert true t kv.1 kv.2 hr (hlen kv (List.mem_cons_self _ _))
    · intro kv' hkv'
      rw [htinsert_entry_width]
      exact hlen kv' (List.mem_cons_of_mem _ hkv')

theorem Reachable_test_table : Reachable test_table :=
  Reachable_insert_all _ _ (Reachable_empty 4 1024 (by decide)) (by decide)

/-! ## Insert then delete of distinct keys -/

/-- C7: for pairwise-distinct keys and a positive bucket count, inserting all
pairs into the freshly initialised table and then calling `htdelete` once for
each key makes every `htdelete` return `TABLE_OK` and ends in the freshly
initialised table again: every bucket is empty and `htlookup` of each of the
keys returns `INVALID_ENTRY`. -/
theorem insert_all_delete_all_restores_empty (w n : Nat) (kvs : List (cstring × List Nat))
    (t0 : table_t) (hn : 0 < n) (hnd : (kvs.map Prod.fst).Nodup)
    (hinit : htinit true w n = (TABLE_OK, some t0)) :
    delete_all (insert_all t0 kvs) (kvs.map Prod.fst)
      = some (List.replicate kvs.length TABLE_OK, t0) ∧
    (∀ i, chain_at t0 i = []) ∧
    ∀ k ∈ kvs.map Prod.fst, ∀ out, htlookup t0 k out = (INVALID_ENTRY, out) := by
  have ht0 := htinit_some hinit
  subst ht0
  have hempty : ∀ i, chain_at (empty_table w n) i = [] := by
    intro i
    simp [chain_at, empty_table, getD_replicate_nil]
  refine ⟨?_, hempty, ?_⟩
  · rw [← table_of_nil, insert_all_table_of w n hn kvs [] (by simpa using hnd)]
    exact delete_all_table_of w n hn kvs
  · intro k _ out
    rw [htlookup_eq, hempty]
    rfl

/-- C7 on the test program: `"foo"`, `"bar"`, `"baz"`, `"qux"` with values 12,
432, 62, 145, `entry_width` 4 and 1024 buckets. -/
theorem insert_all_delete_all_restores_empty_witness :
    0 < 1024 ∧ (test_pairs.map Prod.fst).Nodup ∧
    htinit true 4 1024 = (TABLE_OK, some (empty_table 4 1024)) ∧
    delete_all test_table [key_foo, key_bar, key_baz, key_qux]
      = some ([TABLE_OK, TABLE_OK, TABLE_OK, TABLE_OK], empty_table 4 1024) ∧
    htlookup (empty_table 4 1024) key_bar (some [0, 0, 0, 0])
      = (INVALID_ENTRY, some [0, 0, 0, 0]) := by
  have h := insert_all_delete_all_restores_empty 4 1024 test_pairs (empty_table 4 1024)
    (by decide) (by decide) rfl
  exact ⟨by decide, by decide, rfl, h.1, h.2.2 key_bar (by decide) _⟩

/-! ## Other keys -/

/-- C8: on a reachable table, for keys `k ≠ k'`, the result of `htlookup(k')`
(status and copied value) is the same after `htinsert(k, v)` as before, and the
same after an `htdelete(k)` that returns `TABLE_OK` as before, whether or not
the two keys share a bucket. -/
theorem htlookup_other_key_unchanged (t : table_t) (hr : Reachable t) (k k' : cstring)
    (hk : k ≠ k') (v : List Nat) (malloc_ok : Bool) (out : Option (List Nat)) :
    htlookup (htinsert malloc_ok t k v).2 k' out = htlookup t k' out ∧
    ∀ t', htdelete t k = some (TABLE_OK, t') → htlookup t' k' out = htlookup t k' out := by
  have hwf := hr.inv.toWF
  constructor
  · have hg : get_key (htinsert malloc_ok t k v).2 k' = get_key t k' := by
      rw [htinsert_eq malloc_ok t k v hwf]
      rfl
    rw [htlookup_eq, htlookup_eq, hg, htinsert_entry_width, htinsert_chain_at _ _ _ _ hwf]
    by_cases hi : get_key t k' = get_key t k
    · rw [if_pos hi, htinsert_bucket_first_named _ _ _ _ _ _ hk, hi]
    · rw [if_neg hi]
  · intro t' hd
    have hchain := htdelete_chain_at t k t' hwf hd (get_key t k')
    rcases htdelete_some t k _ t' hd with ⟨h1, _⟩ | ⟨_, _, h3⟩
    · exact absurd h1 (by decide)
    · have hg : get_key t' k' = get_key t k' := by
        rw [h3]
        rfl
      have hw : t'.entry_width = t.entry_width := by rw [h3]
      rw [htlookup_eq, htlookup_eq, hg, hw, hchain]
      by_cases hi : get_key t k' = get_key t k
      · rw [if_pos hi, first_named_eraseP _ _ _ hk, hi]
      · rw [if_neg hi]

/-- C8 on the test program: after inserting `"foo"`, `"bar"`, `"baz"`, `"qux"`
and deleting `"bar"`, `htlookup("baz")` still yields 62 and `htlookup("qux")`
still yields 145. -/
theorem htlookup_other_key_unchanged_witness :
    Reachable test_table ∧ key_bar ≠ key_baz ∧ key_bar ≠ key_qux ∧
    htdelete test_table key_bar = some (TABLE_OK, test_table_without_bar) ∧
    htlookup test_table_without_bar key_baz (some [0, 0, 0, 0])
      = (TABLE_OK, some [62, 0, 0, 0]) ∧
    htlookup test_table_without_bar key_qux (some [0, 0, 0, 0])
      = (TABLE_OK, some [145, 0, 0, 0]) := by
  have hd : htdelete test_table key_bar = some (TABLE_OK, test_table_without_bar) := by
    decide
  have hbaz := (htlookup_other_key_unchanged test_table Reachable_test_table key_bar key_baz
    (by decide) [] true (some [0, 0, 0, 0])).2 _ hd
  have hqux := (htlookup_other_key_unchanged test_table Reachable_test_table key_bar key_qux
    (by decide) [] true (some [0, 0, 0, 0])).2 _ hd
  exact ⟨Reachable_test_table, by decide, by decide, hd, hbaz.trans (by decide),
    hqux.trans (by decide)⟩

/-! ## Colliding keys -/

/-- C9: for a positive bucket count and distinct keys `k1 ≠ k2` with the same
bucket index, starting from the freshly initialised table, `htinsert(k1, v1)`
and `htinsert(k2, v2)` both return `TABLE_OK`, and afterwards `htlookup(k1)`
yields `v1` and `htlookup(k2)` yields `v2`. -/
theorem colliding_keys_both_retrievable (w n : Nat) (t0 : table_t) (k1 k2 : cstring)
    (v1 v2 buf : List Nat) (hn : 0 < n)
    (hinit : htinit true w n = (TABLE_OK, some t0)) (hne : k1 ≠ k2)
    (hcol : get_key t0 k1 = get_key t0 k2)
    (h1 : v1.length = w) (h2 : v2.length = w) (hb : buf.length = w) :
    (htinsert true t0 k1 v1).1 = TABLE_OK ∧
    (htinsert true (htinsert true t0 k1 v1).2 k2 v2).1 = TABLE_OK ∧
    htlookup (htinsert true (htinsert true t0 k1 v1).2 k2 v2).2 k1 (some buf)
      = (TABLE_OK, some v1) ∧
    htlookup (htinsert true (htinsert true t0 k1 v1).2 k2 v2).2 k2 (some buf)
      = (TABLE_OK, some v2) := by
  have ht0 := htinit_some hinit
  subst ht0
  have hcol' : hashstring k1 % n = hashstring k2 % n := hcol
  have hlt : hashstring k2 % n < n := Nat.mod_lt _ hn
  have hne' : ¬ k2 = k1 := fun h => hne h.symm
  have e1 : htinsert true (empty_table w n) k1 v1 = (TABLE_OK, table_of w n [(k1, v1)]) := by
    rw [← table_of_nil]
    exact htinsert_table_of w n [] k1 v1 hn (by simp)
  have e2 : htinsert true (table_of w n [(k1, v1)]) k2 v2
      = (TABLE_OK, table_of w n [(k1, v1), (k2, v2)]) :=
    htinsert_table_of w n [(k1, v1)] k2 v2 hn (by simpa using hne')
  have hg1 : get_key (table_of w n [(k1, v1), (k2, v2)]) k1 = hashstring k2 % n := hcol'
  have hg2 : get_key (table_of w n [(k1, v1), (k2, v2)]) k2 = hashstring k2 % n := rfl
  have hchain : chain_at (table_of w n [(k1, v1), (k2, v2)]) (hashstring k2 % n)
      = [{ data := v1.take w, name := k1 }, { data := v2.take w, name := k2 }] := by
    rw [chain_at_table_of, if_pos hlt]
    simp [List.filter_cons, hcol']
  have hw : (table_of w n [(k1, v1), (k2, v2)]).entry_width = w := rfl
  have ht1 : v1.take w = v1 := List.take_of_length_le (Nat.le_of_eq h1)
  have ht2 : v2.take w = v2 := List.take_of_length_le (Nat.le_of_eq h2)
  have e12 : htinsert true (htinsert true (empty_table w n) k1 v1).2 k2 v2
      = (TABLE_OK, table_of w n [(k1, v1), (k2, v2)]) := by
    rw [e1]
    exact e2
  rw [e12]
  refine ⟨by rw [e1], rfl, ?_, ?_⟩
  · rw [htlookup_eq, hg1, hchain, hw]
    simp only [first_named_cons, if_true, Option.map_some', ht1, memcpy_full buf v1 w hb h1]
  · rw [htlookup_eq, hg2, hchain, hw]
    simp only [first_named_cons, if_neg hne, if_true, Option.map_some', ht2,
      memcpy_full buf v2 w hb h2]

/-- C9 with a single bucket, where `"foo"` and `"bar"` collide. -/
theorem colliding_keys_both_retrievable_witness :
    0 < 1 ∧ key_foo ≠ key_bar ∧
    get_key (empty_table 4 1) key_foo = get_key (empty_table 4 1) key_bar ∧
    htlookup
        (htinsert true (htinsert true (empty_table 4 1) key_foo [12, 0, 0, 0]).2
          key_bar [176, 1, 0, 0]).2 key_foo (some [0, 0, 0, 0])
      = (TABLE_OK, some [12, 0, 0, 0]) ∧
    htlookup
        (htinsert true (htinsert true (empty_table 4 1) key_foo [12, 0, 0, 0]).2
          key_bar [176, 1, 0, 0]).2 key_bar (some [0, 0, 0, 0])
      = (TABLE_OK, some [176, 1, 0, 0]) := by
  have h := colliding_keys_both_retrievable 4 1 (empty_table 4 1) key_foo key_bar
    [12, 0, 0, 0] [176, 1, 0, 0] [0, 0, 0, 0] (by decide) rfl (by decide) (by decide)
    rfl rfl rfl
  exact ⟨by decide, by decide, by decide, h.2.2.1, h.2.2.2⟩

/-! ## Initialisation -/

/-- C11: for `entry_width > 0` and `bucket_count > 0` (the allocation
succeeding), `htinit` returns `TABLE_OK` with a table of exactly `bucket_count`
buckets, all empty, that stores the given `entry_width` and `bucket_count`; on
it `htlookup` of every key returns `INVALID_ENTRY`. -/
theorem htinit_yields_empty_table (entry_width bucket_count : Nat)
    (_hw : 0 < entry_width) (_hn : 0 < bucket_count) :
    ∃ t, htinit true entry_width bucket_count = (TABLE_OK, some t) ∧
      t.buckets.length = bucket_count ∧ (∀ chain ∈ t.buckets, chain = []) ∧
      t.entry_width = entry_width ∧ t.bucket_count = bucket_count ∧
      ∀ k out, htlookup t k out = (INVALID_ENTRY, out) := by
  refine ⟨empty_table entry_width bucket_count, rfl, ?_, ?_, rfl, rfl, ?_⟩
  · simp [empty_table]
  · intro chain hc
    exact List.eq_of_mem_replicate hc
  · intro k out
    have hempty : chain_at (empty_table entry_width bucket_count)
        (get_key (empty_table entry_width bucket_count) k) = [] := by
      simp [chain_at, empty_table, getD_replicate_nil]
    rw [htlookup_eq, hempty]
    rfl

/-- C11 for `sizeof(int)`-byte values and 1024 buckets, looking up `"foo"`. -/
theorem htinit_yields_empty_table_witness :
    0 < 4 ∧ 0 < 1024 ∧
    ∃ t, htinit true 4 1024 = (TABLE_OK, some t) ∧ t.buckets.length = 1024 ∧
      htlookup t key_foo none = (INVALID_ENTRY, none) := by
  obtain ⟨t, h1, h2, _, _, _, h6⟩ := htinit_yields_empty_table 4 1024 (by decide) (by decide)
  exact ⟨by decide, by decide, t, h1, h2, h6 key_foo none⟩

/-! ## Effect of insert and delete on the target bucket -/

theorem sum_set (l : List Nat) (i x : Nat) (h : i < l.length) :
    (l.set i x).sum + l[i] = l.sum + x := by
  induction l generalizing i with
  | nil => cases h
  | cons a l ih =>
    cases i with
    | zero => simp; omega
    | succ i =>
      have := ih i (by simpa using h)
      simp only [List.set_cons_succ, List.sum_cons, List.getElem_cons_succ]
      omega

theorem entry_count_set (t : table_t) (b : Nat) (chain : List entry_t)
    (h : b < t.buckets.length) :
    entry_count { t with buckets := (t.buckets.set b chain) } + (chain_at t b).length
      = entry_count t + chain.length := by
  have hlen : b < (t.buckets.map List.length).length := by simpa using h
  have hs := sum_set (t.buckets.map List.length) b chain.length hlen
  have hget : (t.buckets.map List.length)[b] = (chain_at t b).length := by
    simp [chain_at, List.getD_eq_getElem?_getD, h]
  rw [hget] at hs
  simpa [entry_count, List.map_set] using hs

/-- C16: on an initialised table, when no entry of bucket `b = get_key(k)` is
named `k`, `htinsert(k, v)` returns `TABLE_OK`, the chain of `b` afterwards is
the old chain followed by the one new entry `(k, v)` (alone when the bucket was
empty), and the total number of entries grows by exactly one. -/
theorem htinsert_absent_key_appends (t : table_t) (hwf : WF t) (k : cstring) (v : List Nat)
    (hlen : v.length = t.entry_width)
    (habs : ∀ e ∈ chain_at t (get_key t k), e.name ≠ k) :
    (htinsert true t k v).1 = TABLE_OK ∧
    chain_at (htinsert true t k v).2 (get_key t k)
      = chain_at t (get_key t k) ++ [{ data := v, name := k }] ∧
    (chain_at t (get_key t k) = [] →
      chain_at (htinsert true t k v).2 (get_key t k) = [{ data := v, name := k }]) ∧
    entry_count (htinsert true t k v).2 = entry_count t + 1 := by
  have happ := htinsert_bucket_append t k v _ habs
  have hnew : new_entry t k v = { data := v, name := k } := by
    simp [new_entry, List.take_of_length_le (Nat.le_of_eq hlen)]
  have hchain : chain_at (htinsert true t k v).2 (get_key t k)
      = chain_at t (get_key t k) ++ [{ data := v, name := k }] := by
    rw [htinsert_chain_at true t k v hwf, if_pos rfl, happ, hnew]
  refine ⟨?_, hchain, ?_, ?_⟩
  · rw [htinsert_eq true t k v hwf, happ]
  · intro hnil
    rw [hchain, hnil]
    rfl
  · have hc := entry_count_set t (get_key t k)
      (chain_at t (get_key t k) ++ [new_entry t k v]) (get_key_lt t k hwf)
    rw [htinsert_eq true t k v hwf, happ]
    simp only [List.length_append, List.length_singleton] at hc
    show entry_count { t with buckets := (t.buckets.set (get_key t k)
      (chain_at t (get_key t k) ++ [new_entry t k v])) } = entry_count t + 1
    omega

/-- C16 with a single bucket holding `"foo"`: `htinsert("bar", 432)` appends
the new entry after the entry of `"foo"`. -/
theorem htinsert_absent_key_appends_witness :
    WF (table_of 4 1 [(key_foo, [12, 0, 0, 0])]) ∧
    (htinsert true (table_of 4 1 [(key_foo, [12, 0, 0, 0])]) key_bar [176, 1, 0, 0]).1
      = TABLE_OK ∧
    chain_at (htinsert true (table_of 4 1 [(key_foo, [12, 0, 0, 0])]) key_bar
        [176, 1, 0, 0]).2 0
      = [{ data := [12, 0, 0, 0], name := key_foo },
         { data := [176, 1, 0, 0], name := key_bar }] ∧
    entry_count (htinsert true (table_of 4 1 [(key_foo, [12, 0, 0, 0])]) key_bar
        [176, 1, 0, 0]).2 = 2 := by
  have hwf : WF (table_of 4 1 [(key_foo, [12, 0, 0, 0])]) := ⟨by decide, by decide⟩
  have h := htinsert_absent_key_appends (table_of 4 1 [(key_foo, [12, 0, 0, 0])]) hwf key_bar
    [176, 1, 0, 0] rfl (by decide)
  exact ⟨hwf, h.1, h.2.1, h.2.2.2⟩

/-- C17: on an initialised table, when the chain of bucket `get_key(k)` holds
an entry named `k`, `htdelete(k)` returns `TABLE_OK`; the chain splits as
`pre ++ e :: post` with `e` its first entry named `k`, the chain afterwards is
`pre ++ post` (the other entries with their keys, values and order), and the
total number of entries drops by exactly one. -/
theorem htdelete_present_removes_first (t : table_t) (hwf : WF t) (k : cstring)
    (hpres : ∃ e ∈ chain_at t (get_key t k), e.name = k) :
    ∃ t' pre e post, htdelete t k = some (TABLE_OK, t') ∧
      chain_at t (get_key t k) = pre ++ e :: post ∧ e.name = k ∧
      (∀ x ∈ pre, x.name ≠ k) ∧
      chain_at t' (get_key t k) = pre ++ post ∧
      entry_count t' + 1 = entry_count t := by
  obtain ⟨e0, he0, hn0⟩ := hpres
  have hp0 : (fun e : entry_t => decide (e.name = k)) e0 = true := by simpa using hn0
  obtain ⟨e, pre, post, hpre, he, hsplit, herase⟩ :=
    List.exists_of_eraseP (p := fun e : entry_t => decide (e.name = k)) he0 hp0
  have hfirst : ∃ e1, first_named k (chain_at t (get_key t k)) = some e1 := by
    cases hf : first_named k (chain_at t (get_key t k)) with
    | some e1 => exact ⟨e1, rfl⟩
    | none => exact absurd hn0 (first_named_eq_none.1 hf e0 he0)
  obtain ⟨e1, he1⟩ := hfirst
  have hdel : htdelete t k = some (TABLE_OK, { t with buckets := (t.buckets.set (get_key t k)
      ((chain_at t (get_key t k)).eraseP (fun e => decide (e.name = k)))) }) := by
    rw [htdelete_eq]
    cases hc : chain_at t (get_key t k) with
    | nil =>
      rw [hc] at he0
      cases he0
    | cons cur rest =>
      rw [hc] at he1
      simp only [he1]
  refine ⟨_, pre, e, post, hdel, hsplit, by simpa using he, ?_, ?_, ?_⟩
  · intro x hx
    simpa using hpre x hx
  · rw [htdelete_chain_at t k _ hwf hdel, if_pos rfl, herase]
  · have hc := entry_count_set t (get_key t k)
      ((chain_at t (get_key t k)).eraseP (fun e => decide (e.name = k))) (get_key_lt t k hwf)
    rw [herase] at hc
    rw [herase]
    have hl : (chain_at t (get_key t k)).length = (pre ++ post).length + 1 := by
      rw [hsplit]
      simp
      omega
    omega

/-- C17 with a single bucket holding `"foo"` then `"bar"`: `htdelete("bar")`
unlinks the second entry and leaves the entry of `"foo"`. -/
theorem htdelete_present_removes_first_witness :
    WF (table_of 4 1 [(key_foo, [12, 0, 0, 0]), (key_bar, [176, 1, 0, 0])]) ∧
    (∃ e ∈ chain_at (table_of 4 1 [(key_foo, [12, 0, 0, 0]), (key_bar, [176, 1, 0, 0])])
        (get_key (table_of 4 1 [(key_foo, [12, 0, 0, 0]), (key_bar, [176, 1, 0, 0])])
          key_bar), e.name = key_bar) ∧
    ∃ t', htdelete (table_of 4 1 [(key_foo, [12, 0, 0, 0]), (key_bar, [176, 1, 0, 0])])
        key_bar = some (TABLE_OK, t') ∧
      entry_count t' + 1 = 2 := by
  have hwf : WF (table_of 4 1 [(key_foo, [12, 0, 0, 0]), (key_bar, [176, 1, 0, 0])]) :=
    ⟨by decide, by decide⟩
  have hpres : ∃ e ∈ chain_at
      (table_of 4 1 [(key_foo, [12, 0, 0, 0]), (key_bar, [176, 1, 0, 0])])
      (get_key (table_of 4 1 [(key_foo, [12, 0, 0, 0]), (key_bar, [176, 1, 0, 0])]) key_bar),
      e.name = key_bar :=
    ⟨{ data := [176, 1, 0, 0], name := key_bar }, by decide, rfl⟩
  obtain ⟨t', _, _, _, hdel, _, _, _, _, hcount⟩ :=
    htdelete_present_removes_first _ hwf key_bar hpres
  exact ⟨hwf, hpres, t', hdel, hcount⟩

/-- C18: when the bucket `get_key(k)` is non-empty but holds no entry named
`k`, `htdelete(k)` returns `INVALID_ENTRY` and the table (every chain,
`bucket_count`, `entry_width`) is the one before the call. -/
theorem htdelete_absent_key_unchanged (t : table_t) (k : cstring)
    (hne : chain_at t (get_key t k) ≠ [])
    (habs : ∀ e ∈ chain_at t (get_key t k), e.name ≠ k) :
    htdelete t k = some (INVALID_ENTRY, t) := by
  rw [htdelete_eq]
  cases hc : chain_at t (get_key t k) with
  | nil => exact absurd hc hne
  | cons cur rest =>
    have hf : first_named k (cur :: rest) = none := by
      rw [← hc]
      exact first_named_eq_none.2 habs
    simp only [hf]

/-- C18 with a single bucket holding `"foo"`: `htdelete("bar")` returns
`INVALID_ENTRY` and leaves the table as it was. -/
theorem htdelete_absent_key_unchanged_witness :
    chain_at (table_of 4 1 [(key_foo, [12, 0, 0, 0])])
        (get_key (table_of 4 1 [(key_foo, [12, 0, 0, 0])]) key_bar) ≠ [] ∧
    htdelete (table_of 4 1 [(key_foo, [12, 0, 0, 0])]) key_bar
      = some (INVALID_ENTRY, table_of 4 1 [(key_foo, [12, 0, 0, 0])]) :=
  ⟨by decide,
   htdelete_absent_key_unchanged (table_of 4 1 [(key_foo, [12, 0, 0, 0])]) key_bar
     (by decide) (by decide)⟩

/-! ## Frame and placement -/

/-- C19: on an initialised table, `htinsert(k, v)` and an `htdelete(k)` that
returns leave `bucket_count`, `entry_width` and the chain of every bucket other
than `get_key(k)` unchanged. -/
theorem mutation_touches_one_bucket (t : table_t) (hwf : WF t) (k : cstring) (v : List Nat)
    (malloc_ok : Bool) :
    ((htinsert malloc_ok t k v).2.bucket_count = t.bucket_count ∧
      (htinsert malloc_ok t k v).2.entry_width = t.entry_width ∧
      ∀ i, i ≠ get_key t k → chain_at (htinsert malloc_ok t k v).2 i = chain_at t i) ∧
    ∀ status t', htdelete t k = some (status, t') →
      t'.bucket_count = t.bucket_count ∧ t'.entry_width = t.entry_width ∧
      ∀ i, i ≠ get_key t k → chain_at t' i = chain_at t i := by
  constructor
  · refine ⟨?_, htinsert_entry_width malloc_ok t k v, ?_⟩
    · rw [htinsert_eq malloc_ok t k v hwf]
    · intro i hi
      rw [htinsert_chain_at malloc_ok t k v hwf, if_neg hi]
  · intro status t' hd
    rcases htdelete_some t k status t' hd with ⟨_, h2, _⟩ | ⟨h1, _, h3⟩
    · rw [h2]
      exact ⟨rfl, rfl, fun _ _ => rfl⟩
    · subst h1
      refine ⟨by rw [h3], by rw [h3], ?_⟩
      intro i hi
      rw [htdelete_chain_at t k t' hwf hd, if_neg hi]

/-- C19 on the test table: `htinsert("foo", 432)` and `htdelete("foo")` leave
the bucket of `"bar"` as it was. -/
theorem mutation_touches_one_bucket_witness :
    WF test_table ∧
    chain_at (htinsert true test_table key_foo [176, 1, 0, 0]).2 (get_key test_table key_bar)
      = chain_at test_table (get_key test_table key_bar) ∧
    htdelete test_table key_foo
      = some (TABLE_OK, table_of 4 1024
          [(key_bar, [176, 1, 0, 0]), (key_baz, [62, 0, 0, 0]), (key_qux, [145, 0, 0, 0])]) ∧
    chain_at (table_of 4 1024
          [(key_bar, [176, 1, 0, 0]), (key_baz, [62, 0, 0, 0]), (key_qux, [145, 0, 0, 0])])
        (get_key test_table key_bar)
      = chain_at test_table (get_key test_table key_bar) := by
  have hwf : WF test_table := Reachable_test_table.inv.toWF
  have h := mutation_touches_one_bucket test_table hwf key_foo [176, 1, 0, 0] true
  have hne : get_key test_table key_bar ≠ get_key test_table key_foo := by decide
  have hd : htdelete test_table key_foo
      = some (TABLE_OK, table_of 4 1024
          [(key_bar, [176, 1, 0, 0]), (key_baz, [62, 0, 0, 0]), (key_qux, [145, 0, 0, 0])]) := by
    decide
  exact ⟨hwf, h.1.2.2 _ hne, hd, (h.2 TABLE_OK _ hd).2.2 _ hne⟩

/-- C20: in every reachable table, every entry stored in the chain of bucket
`i` has a name `n` with `get_key(n) = hashstring(n) mod bucket_count = i`; so an
entry named `k` can only be in the chain of bucket `get_key(k)`. -/
theorem reachable_entries_in_own_bucket (t : table_t) (hr : Reachable t) (i : Nat)
    (e : entry_t) (he : e ∈ chain_at t i) :
    get_key t e.name = i ∧ hashstring e.name % t.bucket_count = i ∧ i < t.bucket_count ∧
    ∀ k, e.name = k → i = get_key t k := by
  have hp := hr.inv.placed i e he
  refine ⟨hp, hp, ?_, ?_⟩
  · rw [← hp]
    exact Nat.mod_lt _ hr.inv.count_pos
  · intro k hk
    rw [← hk, hp]

/-- C20 on the test table: the entry of `"baz"` lies in bucket 194, the bucket
index of `"baz"`. -/
theorem reachable_entries_in_own_bucket_witness :
    Reachable test_table ∧
    ({ data := [62, 0, 0, 0], name := key_baz } : entry_t) ∈ chain_at test_table 194 ∧
    get_key test_table key_baz = 194 ∧ hashstring key_baz % 1024 = 194 := by
  have hmem : ({ data := [62, 0, 0, 0], name := key_baz } : entry_t)
      ∈ chain_at test_table 194 := by decide
  have h := reachable_entries_in_own_bucket test_table Reachable_test_table 194 _ hmem
  exact ⟨Reachable_test_table, hmem, h.1, h.2.1⟩

end HashTable

/-! # Singly linked list: proofs -/

namespace LinkedList

/-! ## Merge sort of the linked list -/

theorem llist_sort_split_loop_bounds (fast : List llist_element_t) (slow : Nat) :
    slow ≤ llist_sort_split_loop slow fast ∧
    llist_sort_split_loop slow fast ≤ slow + fast.length / 2 := by
  induction slow, fast using llist_sort_split_loop.induct with
  | case1 slow => simp [llist_sort_split_loop]
  | case2 slow e => simp [llist_sort_split_loop]
  | case3 slow a b fast ih =>
    simp only [llist_sort_split_loop, List.length_cons]
    omega

theorem llist_sort_split_spec (source : List llist_element_t) (h : 2 ≤ source.length) :
    (llist_sort_split source).1 ++ (llist_sort_split source).2 = source ∧
    (llist_sort_split source).1.length + 1 ≤ source.length ∧
    (llist_sort_split source).2.length + 1 ≤ source.length := by
  have hb := llist_sort_split_loop_bounds (source.drop 1) 0
  simp only [List.length_drop] at hb
  refine ⟨List.take_append_drop _ _, ?_, ?_⟩
  · simp only [llist_sort_split, List.length_take]
    omega
  · simp only [llist_sort_split, List.length_drop]
    omega

theorem llist_merge_sorted_spec (compare : List Nat → List Nat → Int)
    (hasymm : ∀ a b, compare a b < 0 → ¬ compare b a < 0)
    (htrans : ∀ a b c, ¬ compare b a < 0 → ¬ compare c b < 0 → ¬ compare c a < 0)
    (fuel : Nat) (head second_head : List llist_element_t)
    (hfuel : head.length + second_head.length ≤ fuel + 1) :
    ∃ merged, llist_merge_sorted compare fuel head second_head = some merged ∧
      merged.Perm (head ++ second_head) ∧
      (head.Pairwise (fun p x => ¬ compare x.data p.data < 0) →
        second_head.Pairwise (fun p x => ¬ compare x.data p.data < 0) →
        merged.Pairwise (fun p x => ¬ compare x.data p.data < 0)) := by
  induction fuel generalizing head second_head with
  | zero =>
    cases head with
    | nil => exact ⟨second_head, by simp [llist_merge_sorted], by simp, fun _ h => h⟩
    | cons h hs =>
      cases second_head with
      | nil => exact ⟨h :: hs, by simp [llist_merge_sorted], by simp, fun h _ => h⟩
      | cons s ss =>
        simp only [List.length_cons] at hfuel
        omega
  | succ fuel ih =>
    cases head with
    | nil => exact ⟨second_head, by simp [llist_merge_sorted], by simp, fun _ h => h⟩
    | cons h hs =>
      cases second_head with
      | nil => exact ⟨h :: hs, by simp [llist_merge_sorted], by simp, fun h _ => h⟩
      | cons s ss =>
        simp only [List.length_cons] at hfuel
        by_cases hc : compare h.data s.data < 0
        · obtain ⟨m, hm, hperm, hsorted⟩ := ih hs (s :: ss) (by simp only [List.length_cons]; omega)
          refine ⟨h :: m, by simp [llist_merge_sorted, hc, hm], ?_, ?_⟩
          · exact (List.Perm.cons h hperm)
          · intro h1 h2
            rw [List.pairwise_cons] at h1
            refine List.pairwise_cons.2 ⟨?_, hsorted h1.2 h2⟩
            intro y hy
            rcases List.mem_append.1 (hperm.mem_iff.1 hy) with hy | hy
            · exact h1.1 y hy
            · rw [List.pairwise_cons] at h2
              have hhs : ¬ compare s.data h.data < 0 := hasymm _ _ hc
              rcases List.mem_cons.1 hy with hy | hy
              · rw [hy]
                exact hhs
              · exact htrans _ _ _ hhs (h2.1 y hy)
        · obtain ⟨m, hm, hperm, hsorted⟩ := ih (h :: hs) ss (by simp only [List.length_cons]; omega)
          refine ⟨s :: m, by simp [llist_merge_sorted, hc, hm], ?_, ?_⟩
          · have hp : (s :: m).Perm (s :: (h :: hs ++ ss)) := List.Perm.cons s hperm
            exact hp.trans (List.perm_middle.symm)
          · intro h1 h2
            rw [List.pairwise_cons] at h2
            refine List.pairwise_cons.2 ⟨?_, hsorted h1 h2.2⟩
            intro y hy
            rcases List.mem_append.1 (hperm.mem_iff.1 hy) with hy | hy
            · rw [List.pairwise_cons] at h1
              rcases List.mem_cons.1 hy with hy | hy
              · rw [hy]
                exact hc
              · exact htrans _ _ _ hc (h1.1 y hy)
            · exact h2.1 y hy

theorem llist_sort_internal_spec (compare : List Nat → List Nat → Int)
    (hasymm : ∀ a b, compare a b < 0 → ¬ compare b a < 0)
    (htrans : ∀ a b c, ¬ compare b a < 0 → ¬ compare c b < 0 → ¬ compare c a < 0)
    (fuel : Nat) (chain : List llist_element_t) (hfuel : chain.length ≤ fuel) :
    ∃ sorted, llist_sort_internal compare fuel chain = some sorted ∧
      sorted.Perm chain ∧
      sorted.Pairwise (fun p x => ¬ compare x.data p.data < 0) := by
  induction fuel generalizing chain with
  | zero =>
    have : chain = [] := List.length_eq_zero.1 (Nat.le_zero.1 hfuel)
    subst this
    exact ⟨[], by simp [llist_sort_internal], List.Perm.refl _, List.Pairwise.nil⟩
  | succ fuel ih =>
    match chain, hfuel with
    | [], _ => exact ⟨[], by simp [llist_sort_internal], List.Perm.refl _, List.Pairwise.nil⟩
    | [e], _ =>
      exact ⟨[e], by simp [llist_sort_internal], List.Perm.refl _, List.pairwise_singleton _ _⟩
    | e :: e' :: rest, hfuel =>
      have hsplit := llist_sort_split_spec (e :: e' :: rest) (by simp)
      simp only [List.length_cons] at hfuel hsplit
      obtain ⟨front, hf, hfp, hfs⟩ := ih (llist_sort_split (e :: e' :: rest)).1 (by omega)
      obtain ⟨back, hb, hbp, hbs⟩ := ih (llist_sort_split (e :: e' :: rest)).2 (by omega)
      have hlen : front.length + back.length ≤ fuel + 1 := by
        have h1 := hfp.length_eq
        have h2 := hbp.length_eq
        have h3 := congrArg List.length hsplit.1
        simp only [List.length_append, List.length_cons] at h3
        omega
      obtain ⟨m, hm, hmp, hms⟩ :=
        llist_merge_sorted_spec compare hasymm htrans fuel front back hlen
      refine ⟨m, ?_, ?_, hms hfs hbs⟩
      · simp only [llist_sort_internal, hf, hb, hm]
      · have := hmp.trans (List.Perm.append hfp hbp)
        rw [hsplit.1] at this
        exact this

theorem llist_sort_tail_eq (tail : Option Nat) (chain : List llist_element_t)
    (h : chain ≠ []) :
    llist_sort_tail tail chain = chain.getLast?.map (fun e => e.addr) := by
  induction chain with
  | nil => exact absurd rfl h
  | cons e rest ih =>
    cases rest with
    | nil => rfl
    | cons e' rest =>
      rw [llist_sort_tail, ih (by simp), List.getLast?_cons_cons]

/-- C12: for a compare function that is a total preorder (a negative result
meaning that the first argument goes before the second) and enough fuel for the
recursion, `llist_sort` on an empty list returns `INDEX_ERROR` and changes
nothing; on a non-empty list it returns `LIST_OK`, the new node sequence is a
permutation of the old one in which no node compares strictly less than its
predecessor (nor than any earlier node), the tail pointer holds the address of
the last node of the new sequence, and `length` is unchanged. -/
theorem llist_sort_sorts (compare : List Nat → List Nat → Int)
    (hasymm : ∀ a b, compare a b < 0 → ¬ compare b a < 0)
    (htrans : ∀ a b c, ¬ compare b a < 0 → ¬ compare c b < 0 → ¬ compare c a < 0)
    (list : llist_t) (fuel : Nat) (hfuel : list.head.length ≤ fuel) :
    (list.head = [] → llist_sort fuel compare list = some (INDEX_ERROR, list)) ∧
    (list.head ≠ [] →
      ∃ list', llist_sort fuel compare list = some (LIST_OK, list') ∧
        list'.head.Perm list.head ∧
        list'.head.Chain' (fun p x => ¬ compare x.data p.data < 0) ∧
        list'.head.Pairwise (fun p x => ¬ compare x.data p.data < 0) ∧
        list'.tail = list'.head.getLast?.map (fun e => e.addr) ∧
        list'.length = list.length ∧ list'.data_width = list.data_width) := by
  constructor
  · intro h
    simp only [llist_sort, h]
  · intro h
    obtain ⟨sorted, hs, hperm, hsorted⟩ :=
      llist_sort_internal_spec compare hasymm htrans fuel list.head hfuel
    have hne : sorted ≠ [] := by
      intro hnil
      rw [hnil] at hperm
      exact h (List.Perm.nil_eq hperm).symm
    cases hc : list.head with
    | nil => exact absurd hc h
    | cons e rest =>
      rw [hc] at hs
      refine ⟨{ list with head := sorted, tail := llist_sort_tail list.tail sorted }, ?_, ?_,
        hsorted.chain', hsorted, llist_sort_tail_eq _ _ hne, rfl, rfl⟩
      · simp only [llist_sort, hc, hs]
      · rw [← hc]
        exact hperm

/-- C12 on the list 3, 1, 2 compared by first byte: the sort returns `LIST_OK`
with the nodes in the order 1, 2, 3 and the tail pointer on the node of 3. -/
theorem llist_sort_sorts_witness :
    (∀ a b, compare_first_byte a b < 0 → ¬ compare_first_byte b a < 0) ∧
    (∀ a b c, ¬ compare_first_byte b a < 0 → ¬ compare_first_byte c b < 0 →
      ¬ compare_first_byte c a < 0) ∧
    three_node_list.head.length ≤ 3 ∧ three_node_list.head ≠ [] ∧
    llist_sort 3 compare_first_byte three_node_list
      = some (LIST_OK, ⟨3, [{ addr := 20, data := [1] }, { addr := 30, data := [2] },
          { addr := 10, data := [3] }], some 10, 1⟩) ∧
    ∃ list', llist_sort 3 compare_first_byte three_node_list = some (LIST_OK, list') ∧
      list'.head.Perm three_node_list.head ∧
      list'.head.Chain' (fun p x => ¬ compare_first_byte x.data p.data < 0) := by
  have hasymm : ∀ a b, compare_first_byte a b < 0 → ¬ compare_first_byte b a < 0 := by
    intro a b
    simp only [compare_first_byte]
    omega
  have htrans : ∀ a b c, ¬ compare_first_byte b a < 0 → ¬ compare_first_byte c b < 0 →
      ¬ compare_first_byte c a < 0 := by
    intro a b c
    simp only [compare_first_byte]
    omega
  have h := llist_sort_sorts compare_first_byte hasymm htrans three_node_list 3 (by decide)
  obtain ⟨list', h1, h2, h3, _⟩ := h.2 (by decide)
  exact ⟨hasymm, htrans, by decide, by decide, by decide, list', h1, h2, h3⟩

/-! ## Push and pop -/

theorem set_next_last (q chain : List llist_element_t) (last : llist_element_t)
    (hnd : (chain.map (fun e => e.addr)).Nodup) (hlast : chain.getLast? = some last) :
    set_next last.addr q chain = chain ++ q := by
  induction chain with
  | nil => cases hlast
  | cons e rest ih =>
    cases rest with
    | nil =>
      simp only [List.getLast?_singleton, Option.some.injEq] at hlast
      subst hlast
      simp [set_next]
    | cons e' rest =>
      rw [List.getLast?_cons_cons] at hlast
      have hmem : last ∈ e' :: rest := List.mem_of_getLast?_eq_some hlast
      rw [List.map_cons, List.nodup_cons] at hnd
      have hne : ¬ e.addr = last.addr := by
        intro heq
        exact hnd.1 (List.mem_map.2 ⟨last, hmem, heq.symm⟩)
      rw [set_next, if_neg hne, ih hnd.2 hlast]
      rfl

theorem QueueInv_push (list : llist_t) (a : Nat) (data : List Nat) (h : QueueInv list)
    (hfresh : a ∉ list.head.map (fun e => e.addr)) (hlen : data.length = list.data_width) :
    ∃ list', llist_push (some a) data list = some (LIST_OK, list') ∧
      list'.head = list.head ++ [{ addr := a, data := data }] ∧ QueueInv list' := by
  have htake : data.take list.data_width = data := List.take_of_length_le (Nat.le_of_eq hlen)
  cases hc : list.head with
  | nil =>
    refine ⟨{ list with head := [{ addr := a, data := data.take list.data_width }],
                        tail := some a, length := list.length + 1 },
      by simp only [llist_push, hc], by simp [htake], ?_⟩
    refine ⟨fun _ => rfl, by simp, ?_, ?_⟩
    · intro e he
      simp only [List.mem_singleton] at he
      rw [he]
      simp [hlen]
    · simp [h.length_eq, hc]
  | cons e rest =>
    have hne : list.head ≠ [] := by simp [hc]
    have htail := h.tail_last hne
    obtain ⟨last, hlast⟩ : ∃ last, list.head.getLast? = some last := by
      cases hl : list.head.getLast? with
      | none => exact absurd (List.getLast?_eq_none_iff.1 hl) hne
      | some last => exact ⟨last, rfl⟩
    rw [hlast] at htail
    have hset := set_next_last [{ addr := a, data := data }] list.head last h.nodup hlast
    rw [hc] at hset
    refine ⟨{ list with head := set_next last.addr
                          [{ addr := a, data := data.take list.data_width }] (e :: rest),
                        tail := some a, length := list.length + 1 },
      by simp only [llist_push, hc, htail, Option.map_some'], ?_, ?_⟩
    · simp only [htake, hset]
    · refine ⟨fun _ => ?_, ?_, ?_, ?_⟩
      · simp only [htake, hset]
        rw [List.getLast?_concat]
        rfl
      · simp only [htake, hset]
        rw [← hc, List.map_append, List.nodup_append]
        refine ⟨h.nodup, by simp, ?_⟩
        intro x hx hx'
        simp only [List.map_cons, List.map_nil, List.mem_singleton] at hx'
        exact hfresh (hx' ▸ hx)
      · intro x hx
        simp only [htake, hset] at hx
        rw [← hc] at hx
        rcases List.mem_append.1 hx with hx | hx
        · exact h.sized x hx
        · simp only [List.mem_singleton] at hx
          rw [hx]
          exact hlen
      · simp only [htake, hset, h.length_eq, hc]
        simp

theorem QueueInv_pop (list : llist_t) (buf : List Nat) (h : QueueInv list) :
    QueueInv (llist_pop buf list).2.2 := by
  cases hc : list.head with
  | nil =>
    simp only [llist_pop, hc]
    exact h
  | cons e rest =>
    simp only [llist_pop, hc]
    have hne : list.head ≠ [] := by simp [hc]
    refine ⟨?_, ?_, ?_, ?_⟩
    · intro hr
      have := h.tail_last hne
      rw [hc] at this
      cases rest with
      | nil => exact absurd rfl hr
      | cons e' rest => simpa [List.getLast?_cons_cons] using this
    · have := h.nodup
      rw [hc, List.map_cons, List.nodup_cons] at this
      exact this.2
    · intro x hx
      exact h.sized x (hc ▸ List.mem_cons_of_mem _ hx)
    · simp [h.length_eq, hc]

theorem PushPop.queue_inv {list : llist_t} (h : PushPop list) : QueueInv list := by
  induction h with
  | init list w list' hw hinit =>
    have hnot : ¬ w ≤ 0 := by omega
    simp only [llist_init, if_neg hnot, Prod.mk.injEq, true_and] at hinit
    rw [← hinit]
    exact ⟨fun h => absurd rfl h, by simp, by simp, by simp⟩
  | push list malloc data status list' _ hfresh hlen hpush ih =>
    cases malloc with
    | none =>
      simp only [llist_push, Option.some.injEq, Prod.mk.injEq] at hpush
      rw [← hpush.2]
      exact ih
    | some a =>
      obtain ⟨l2, h2, _, hinv⟩ := QueueInv_push list a data ih (hfresh a rfl) hlen
      rw [h2] at hpush
      simp only [Option.some.injEq, Prod.mk.injEq] at hpush
      rw [← hpush.2]
      exact hinv
  | pop list buf status out list' _ hpop ih =>
    have := QueueInv_pop list buf ih
    rw [hpop] at this
    exact this

/-- C13: on every list obtained from `llist_init` (positive width) by
`llist_push` and `llist_pop` calls, `llist_push` (allocation succeeding) returns
`LIST_OK` and appends its element at the back, and `llist_pop` returns
`INDEX_ERROR` exactly when the list is empty and otherwise returns `LIST_OK`
with the data of the front node, leaving the nodes after it; so elements leave
in the order they were pushed. -/
theorem llist_push_pop_fifo (list : llist_t) (hr : PushPop list) :
    (∀ a data, a ∉ list.head.map (fun e => e.addr) → data.length = list.data_width →
      ∃ list', llist_push (some a) data list = some (LIST_OK, list') ∧
        list'.head = list.head ++ [{ addr := a, data := data }]) ∧
    (∀ buf, buf.length = list.data_width →
      (list.head = [] → llist_pop buf list = (INDEX_ERROR, buf, list)) ∧
      (∀ e rest, list.head = e :: rest →
        ∃ list', llist_pop buf list = (LIST_OK, e.data, list') ∧ list'.head = rest)) ∧
    (∀ buf, (llist_pop buf list).1 = INDEX_ERROR ↔ list.head = []) := by
  have hinv := hr.queue_inv
  refine ⟨?_, ?_, ?_⟩
  · intro a data hfresh hlen
    obtain ⟨l2, h2, h3, _⟩ := QueueInv_push list a data hinv hfresh hlen
    exact ⟨l2, h2, h3⟩
  · intro buf hbuf
    constructor
    · intro hnil
      simp only [llist_pop, hnil]
    · intro e rest hc
      have hsz := hinv.sized e (hc ▸ List.mem_cons_self _ _)
      refine ⟨{ list with head := rest, length := list.length - 1 }, ?_, rfl⟩
      simp only [llist_pop, hc, memcpy]
      simp [← hsz, ← hbuf, hbuf.trans hsz.symm]
  · intro buf
    cases hc : list.head with
    | nil => simp [llist_pop, hc]
    | cons e rest =>
      simp only [llist_pop, hc]
      simp [LIST_OK, INDEX_ERROR]

/-- C13 on the list holding 3: pushing 1 appends it behind 3, and the pop that
follows returns 3. -/
theorem llist_push_pop_fifo_witness :
    PushPop one_node_list ∧
    (∃ list', llist_push (some 20) [1] one_node_list = some (LIST_OK, list') ∧
      list'.head = [{ addr := 10, data := [3] }, { addr := 20, data := [1] }]) ∧
    (∃ list', llist_pop [0] one_node_list = (LIST_OK, [3], list') ∧ list'.head = []) := by
  have hr : PushPop one_node_list :=
    PushPop.push { length := 0, head := [], tail := none, data_width := 1 } (some 10) [3]
      LIST_OK one_node_list
      (PushPop.init { length := 0, head := [], tail := none, data_width := 0 } 1 _
        (by decide) rfl)
      (by intro a _; simp) rfl rfl
  have h := llist_push_pop_fifo one_node_list hr
  exact ⟨hr, h.1 20 [1] (by decide) rfl, (h.2.1 [0] rfl).2 _ _ rfl⟩

/-! ## Insert before the head node -/

/-- C14, the code at a failing input: on the list holding the single node at
address 10, and on the list of the nodes at addresses 10, 20, 30,
`llist_insert_before` with the head node (address 10) as `element` returns
`INDEX_ERROR` and leaves the list as it was; with the second node (address 20)
it returns `LIST_OK` and links the new node before it. -/
theorem llist_insert_before_head_index_error :
    llist_insert_before (some 40) [7] (some 10) one_node_list
      = some (INDEX_ERROR, one_node_list) ∧
    llist_insert_before (some 40) [7] (some 10) three_node_list
      = some (INDEX_ERROR, three_node_list) ∧
    (llist_insert_before (some 40) [7] (some 20) three_node_list).map
        (fun r => (r.1, r.2.head))
      = some (LIST_OK, [{ addr := 10, data := [3] }, { addr := 40, data := [7] },
          { addr := 20, data := [1] }, { addr := 30, data := [2] }]) := by
  decide

/-! ## The length field -/

theorem Reachable_empty_list : Reachable empty_list :=
  Reachable.init { length := 0, head := [], tail := none, data_width := 0 } 1 _ (by decide) rfl

theorem Reachable_one_node_list : Reachable one_node_list :=
  Reachable.push empty_list (some 10) [3] LIST_OK one_node_list Reachable_empty_list
    (by intro a _; simp [empty_list]) rfl rfl

theorem Reachable_two_node_list : Reachable two_node_list :=
  Reachable.push one_node_list (some 20) [1] LIST_OK two_node_list Reachable_one_node_list
    (by intro a h; cases h; decide) rfl rfl

/-- C21, the code at a failing input: on the list holding the single node at
address 10 (reached by `llist_init` and one `llist_push`), `llist_remove` of
that node, the head, returns `LIST_OK` and unlinks it but leaves `length` at 1
while no node is reachable from the head. And on the list of the nodes at
addresses 10 and 20, `llist_remove` of the last node leaves the tail pointer on
the removed node, so the `llist_push` that follows raises `length` to 2 while
only the node at address 10 is reachable from the head. -/
theorem llist_remove_length_not_node_count :
    Reachable one_node_list ∧
    llist_remove (some 10) one_node_list
      = (LIST_OK, ⟨1, [], some 10, 1⟩) ∧
    Reachable (llist_remove (some 10) one_node_list).2 ∧
    (llist_remove (some 10) one_node_list).2.length = 1 ∧
    (llist_remove (some 10) one_node_list).2.head.length = 0 ∧
    Reachable two_node_list ∧
    llist_remove (some 20) two_node_list
      = (LIST_OK, ⟨1, [{ addr := 10, data := [3] }], some 20, 1⟩) ∧
    llist_push (some 30) [2] (llist_remove (some 20) two_node_list).2
      = some (LIST_OK, ⟨2, [{ addr := 10, data := [3] }], some 30, 1⟩) :=
  ⟨Reachable_one_node_list, by decide,
   Reachable.remove one_node_list 10 LIST_OK _ Reachable_one_node_list (by decide) (by decide),
   by decide, by decide, Reachable_two_node_list, by decide, by decide⟩

end LinkedList

/-! # Dynamic-array stack: proofs -/

namespace DynStack

/-! ## Blocks of memory -/

theorem realloc_length (block : List Nat) (size : Nat) : (realloc block size).length = size := by
  simp only [realloc, List.length_append, List.length_take, List.length_replicate]
  omega

theorem realloc_take (block : List Nat) (size m : Nat) (h1 : m ≤ size) (h2 : m ≤ block.length) :
    (realloc block size).take m = block.take m := by
  simp only [realloc]
  rw [List.take_append_of_le_length (by simp only [List.length_take]; omega), List.take_take,
    Nat.min_eq_left h1]

theorem realloc_same (block : List Nat) : realloc block block.length = block := by
  simp [realloc]

theorem memcpy_at_length (block : List Nat) (offset : Nat) (data : List Nat) (n : Nat)
    (h : offset + n ≤ block.length) (hd : data.length = n) :
    (memcpy_at block offset data n).length = block.length := by
  simp only [memcpy_at, memcpy, List.length_append, List.length_take, List.length_drop]
  omega

theorem memcpy_at_take (block : List Nat) (offset : Nat) (data : List Nat) (n : Nat)
    (h : offset ≤ block.length) :
    (memcpy_at block offset data n).take offset = block.take offset := by
  simp only [memcpy_at]
  rw [List.take_append_of_le_length (by simp only [List.length_take]; omega), List.take_take,
    Nat.min_self]

theorem memcpy_at_read (block : List Nat) (offset : Nat) (data : List Nat) (n : Nat)
    (h : offset ≤ block.length) (hd : data.length = n) :
    ((memcpy_at block offset data n).drop offset).take n = data := by
  have hl : (block.take offset).length = offset := by
    simp only [List.length_take]
    omega
  simp only [memcpy_at, memcpy]
  rw [List.drop_append_of_le_length (Nat.le_of_eq hl.symm), List.drop_of_length_le
    (Nat.le_of_eq hl), List.nil_append, List.take_append_of_le_length
    (by simp only [List.length_take]; omega), List.take_take, Nat.min_self,
    List.take_of_length_le (Nat.le_of_eq hd)]

theorem shift_left_one (a : Nat) : a <<< 1 = 2 * a := by
  simp [Nat.shiftLeft_eq, Nat.mul_comm]

theorem shift_right_one (a : Nat) : a >>> 1 = a / 2 := by
  simp [Nat.shiftRight_eq_div_pow]

/-! ## Push and pop -/

theorem stack_push_eq (s : stack_t) (x : List Nat) (h : StackInv s)
    (hov : s.length = s.allocated_blocks →
      2 * s.allocated_blocks * s.element_width < SIZE_MOD) :
    stack_push true s x
      = (STACK_OK,
          { length := s.length + 1, element_width := s.element_width,
            allocated_blocks := if s.length = s.allocated_blocks then 2 * s.allocated_blocks
                                else s.allocated_blocks,
            stack_base := memcpy_at
              (realloc s.stack_base
                ((if s.length = s.allocated_blocks then 2 * s.allocated_blocks
                  else s.allocated_blocks) * s.element_width))
              (s.length * s.element_width) x s.element_width }) := by
  have hw := h.width_pos
  have hpos := h.blocks_pos
  have hle := Nat.mul_le_mul_right s.element_width h.length_le
  have hno := h.no_overflow
  have hoff : (s.length * s.element_width) % SIZE_MOD = s.length * s.element_width :=
    Nat.mod_eq_of_lt (by omega)
  have hal : s.allocated_blocks ≤ s.allocated_blocks * s.element_width :=
    Nat.le_mul_of_pos_right _ hw
  by_cases hfull : s.length = s.allocated_blocks
  · have hov' := hov hfull
    have h2 : 2 * s.allocated_blocks ≤ 2 * s.allocated_blocks * s.element_width :=
      Nat.le_mul_of_pos_right _ hw
    have hb : (s.allocated_blocks <<< 1) % SIZE_MOD = 2 * s.allocated_blocks := by
      rw [shift_left_one]
      exact Nat.mod_eq_of_lt (by omega)
    have hsz : (2 * s.allocated_blocks * s.element_width) % SIZE_MOD
        = 2 * s.allocated_blocks * s.element_width := Nat.mod_eq_of_lt hov'
    have hlen : (s.length + 1) % SIZE_MOD = s.length + 1 := Nat.mod_eq_of_lt (by omega)
    simp only [stack_push, if_pos hfull, if_true, hb, hsz, hoff, hlen]
  · have hlen : (s.length + 1) % SIZE_MOD = s.length + 1 := by
      have := h.length_le
      exact Nat.mod_eq_of_lt (by omega)
    have hre : realloc s.stack_base (s.allocated_blocks * s.element_width) = s.stack_base := by
      rw [← h.base_length]
      exact realloc_same _
    simp only [stack_push, if_neg hfull, hoff, hlen, hre]

theorem stack_pop_eq (s : stack_t) (loc : List Nat) (h : StackInv s) (hne : s.length ≠ 0) :
    stack_pop true s loc
      = (STACK_OK,
          memcpy loc
            ((realloc s.stack_base
                ((if s.length = s.allocated_blocks / 2 then s.allocated_blocks / 2
                  else s.allocated_blocks) * s.element_width)).drop
              ((s.length - 1) * s.element_width))
            s.element_width,
          { length := s.length - 1, element_width := s.element_width,
            allocated_blocks := if s.length = s.allocated_blocks / 2 then s.allocated_blocks / 2
                                else s.allocated_blocks,
            stack_base := realloc s.stack_base
              ((if s.length = s.allocated_blocks / 2 then s.allocated_blocks / 2
                else s.allocated_blocks) * s.element_width) }) := by
  have hle := Nat.mul_le_mul_right s.element_width h.length_le
  have hle1 := Nat.mul_le_mul_right s.element_width (Nat.sub_le s.length 1)
  have hno := h.no_overflow
  have hoff : ((s.length - 1) * s.element_width) % SIZE_MOD = (s.length - 1) * s.element_width :=
    Nat.mod_eq_of_lt (by omega)
  by_cases hhalf : s.length = s.allocated_blocks / 2
  · have hsm := Nat.mul_le_mul_right s.element_width (Nat.div_le_self s.allocated_blocks 2)
    have hsz : (s.allocated_blocks / 2 * s.element_width) % SIZE_MOD
        = s.allocated_blocks / 2 * s.element_width := Nat.mod_eq_of_lt (by omega)
    simp only [stack_pop, if_neg hne, shift_right_one, if_pos hhalf, if_true, hsz, hoff]
  · have hre : realloc s.stack_base (s.allocated_blocks * s.element_width) = s.stack_base := by
      rw [← h.base_length]
      exact realloc_same _
    simp only [stack_pop, if_neg hne, shift_right_one, if_neg hhalf, hoff, hre]

theorem StackInv_push (s : stack_t) (x : List Nat) (h : StackInv s)
    (hx : x.length = s.element_width)
    (hov : s.length = s.allocated_blocks →
      2 * s.allocated_blocks * s.element_width < SIZE_MOD) :
    StackInv (stack_push true s x).2 := by
  rw [stack_push_eq s x h hov]
  have hw := h.width_pos
  have hpos := h.blocks_pos
  have hle := h.length_le
  have hno := h.no_overflow
  have hsucc : (s.length + 1) * s.element_width = s.length * s.element_width + s.element_width :=
    Nat.succ_mul _ _
  by_cases hfull : s.length = s.allocated_blocks
  · simp only [if_pos hfull]
    have hm := Nat.mul_le_mul_right s.element_width
      (show s.length + 1 ≤ 2 * s.allocated_blocks by omega)
    refine ⟨hw, ?_, ?_, hov hfull, ?_⟩
    · show 1 ≤ 2 * s.allocated_blocks
      omega
    · show s.length + 1 ≤ 2 * s.allocated_blocks
      omega
    · show (memcpy_at _ _ _ _).length = _
      rw [memcpy_at_length _ _ _ _ (by rw [realloc_length]; omega) hx, realloc_length]
  · simp only [if_neg hfull]
    have hm := Nat.mul_le_mul_right s.element_width
      (show s.length + 1 ≤ s.allocated_blocks by omega)
    refine ⟨hw, hpos, ?_, hno, ?_⟩
    · show s.length + 1 ≤ s.allocated_blocks
      omega
    · show (memcpy_at _ _ _ _).length = _
      rw [memcpy_at_length _ _ _ _ (by rw [realloc_length]; omega) hx, realloc_length]

theorem StackInv_pop (s : stack_t) (loc : List Nat) (h : StackInv s) :
    StackInv (stack_pop true s loc).2.2 := by
  by_cases hne : s.length = 0
  · simp only [stack_pop, if_pos hne]
    exact h
  · rw [stack_pop_eq s loc h hne]
    have hw := h.width_pos
    have hle := h.length_le
    have hno := h.no_overflow
    by_cases hhalf : s.length = s.allocated_blocks / 2
    · simp only [if_pos hhalf]
      have hsm := Nat.mul_le_mul_right s.element_width (Nat.div_le_self s.allocated_blocks 2)
      refine ⟨hw, ?_, ?_, ?_, realloc_length _ _⟩
      · show 1 ≤ s.allocated_blocks / 2
        omega
      · show s.length - 1 ≤ s.allocated_blocks / 2
        omega
      · show s.allocated_blocks / 2 * s.element_width < SIZE_MOD
        omega
    · simp only [if_neg hhalf]
      refine ⟨hw, h.blocks_pos, ?_, hno, realloc_length _ _⟩
      show s.length - 1 ≤ s.allocated_blocks
      omega

theorem Reachable.stack_inv {s : stack_t} (h : Reachable s) : StackInv s := by
  induction h with
  | init stack w stack' hw hov hinit =>
    have hnot : ¬ w ≤ 0 := by omega
    simp only [stack_init, if_neg hnot, if_true, Prod.mk.injEq, true_and] at hinit
    rw [← hinit]
    refine ⟨hw, (by decide : 1 ≤ BASE_STACK_LENGTH), Nat.zero_le _, ?_, ?_⟩
    · simpa [Nat.mul_comm] using hov
    · simp [Nat.mod_eq_of_lt hov, Nat.mul_comm]
  | push stack data status stack' _ hlen hov hpush ih =>
    have := StackInv_push stack data ih hlen hov
    rw [hpush] at this
    exact this
  | pop stack loc status out stack' _ hpop ih =>
    have := StackInv_pop stack loc ih
    rw [hpop] at this
    exact this

theorem stack_pop_size_error_iff (realloc_ok : Bool) (s : stack_t) (loc : List Nat) :
    (stack_pop realloc_ok s loc).1 = SIZE_ERROR ↔ s.length = 0 := by
  by_cases hz : s.length = 0
  · simp [stack_pop, hz]
  · have h1 : MEM_ERROR ≠ SIZE_ERROR := by decide
    have h2 : STACK_OK ≠ SIZE_ERROR := by decide
    by_cases hhalf : s.length = s.allocated_blocks >>> 1
    · cases realloc_ok
      · simp only [stack_pop, if_neg hz, if_pos hhalf, Bool.false_eq_true, if_false, hz,
          iff_false]
        exact h1
      · simp only [stack_pop, if_neg hz, if_pos hhalf, if_true, hz, iff_false]
        exact h2
    · simp only [stack_pop, if_neg hz, if_neg hhalf, hz, iff_false]
      exact h2

/-- C15: on a reachable stack, `stack_push(x)` followed by `stack_pop` (the
allocations succeeding, the block size staying below `2 ^ 64`) returns
`STACK_OK` with `x` and leaves `length` and the stored element sequence as they
were before the push; and `stack_pop` returns `SIZE_ERROR` exactly when
`length` is 0, leaving the stack unchanged. -/
theorem stack_push_pop_lifo (s : stack_t) (hr : Reachable s) (x loc : List Nat)
    (hx : x.length = s.element_width) (hloc : loc.length = s.element_width)
    (hov : s.length = s.allocated_blocks →
      2 * s.allocated_blocks * s.element_width < SIZE_MOD) :
    (stack_push true s x).1 = STACK_OK ∧
    (stack_pop true (stack_push true s x).2 loc).1 = STACK_OK ∧
    (stack_pop true (stack_push true s x).2 loc).2.1 = x ∧
    (stack_pop true (stack_push true s x).2 loc).2.2.length = s.length ∧
    elements (stack_pop true (stack_push true s x).2 loc).2.2 = elements s ∧
    (∀ realloc_ok loc', (stack_pop realloc_ok s loc').1 = SIZE_ERROR ↔ s.length = 0) ∧
    (s.length = 0 → ∀ realloc_ok loc', stack_pop realloc_ok s loc' = (SIZE_ERROR, loc', s)) := by
  have h := hr.stack_inv
  have h1 := StackInv_push s x h hx hov
  have hpush := stack_push_eq s x h hov
  have hpop := stack_pop_eq (stack_push true s x).2 loc h1
    (by rw [hpush]; exact Nat.succ_ne_zero _)
  have hl1 := h1.length_le
  have hb1 := h1.base_length
  rw [hpush] at hpop hl1 hb1
  simp only [Nat.add_sub_cancel] at hpop hl1 hb1
  have hw := h.width_pos
  have hle := Nat.mul_le_mul_right s.element_width h.length_le
  have hbase := h.base_length
  have hsucc : (s.length + 1) * s.element_width = s.length * s.element_width + s.element_width :=
    Nat.succ_mul _ _
  -- the number of blocks after the push and after the pop
  generalize ha1 : (if s.length = s.allocated_blocks then 2 * s.allocated_blocks
    else s.allocated_blocks) = a1 at hpop hl1 hb1 hpush
  generalize ha2 : (if s.length + 1 = a1 / 2 then a1 / 2 else a1) = a2 at hpop
  have ha1le : s.allocated_blocks ≤ a1 := by
    rw [← ha1]
    split <;> omega
  have ha2ge : s.length + 1 ≤ a2 := by
    rw [← ha2]
    split <;> omega
  have ha2le : a2 ≤ a1 := by
    rw [← ha2]
    split <;> omega
  have hm1 := Nat.mul_le_mul_right s.element_width ha1le
  have hm2 := Nat.mul_le_mul_right s.element_width ha2ge
  have hm3 := Nat.mul_le_mul_right s.element_width ha2le
  have hrl : (realloc s.stack_base (a1 * s.element_width)).length = a1 * s.element_width :=
    realloc_length _ _
  simp only [hpush, hpop]
  refine ⟨trivial, trivial, ?_, trivial, ?_, ?_, ?_⟩
  · simp only [memcpy]
    rw [List.drop_of_length_le (Nat.le_of_eq hloc), List.append_nil, List.take_drop,
      realloc_take _ _ _ (by omega) (by omega), ← List.take_drop]
    exact memcpy_at_read _ _ _ _ (by omega) hx
  · simp only [elements]
    rw [realloc_take _ _ _ (by omega) (by omega), memcpy_at_take _ _ _ _ (by omega),
      realloc_take _ _ _ (by omega) (by omega)]
  · intro ok loc'
    exact stack_pop_size_error_iff ok s loc'
  · intro hz ok loc'
    simp only [stack_pop, if_pos hz]

/-- C15 on the stack of one-byte elements right after `stack_init`: pushing 7
and popping returns 7 and leaves the stack empty. -/
theorem stack_push_pop_lifo_witness :
    Reachable fresh_stack ∧
    (stack_push true fresh_stack [7]).1 = STACK_OK ∧
    (stack_pop true (stack_push true fresh_stack [7]).2 [0]).1 = STACK_OK ∧
    (stack_pop true (stack_push true fresh_stack [7]).2 [0]).2.1 = [7] ∧
    (stack_pop true (stack_push true fresh_stack [7]).2 [0]).2.2.length = 0 ∧
    stack_pop true fresh_stack [0] = (SIZE_ERROR, [0], fresh_stack) := by
  have hr : Reachable fresh_stack :=
    Reachable.init { length := 0, element_width := 0, allocated_blocks := 0, stack_base := [] }
      1 fresh_stack (by decide) (by decide) rfl
  have h := stack_push_pop_lifo fresh_stack hr [7] [0] rfl rfl (by decide)
  exact ⟨hr, h.1, h.2.1, h.2.2.1, h.2.2.2.1, h.2.2.2.2.2.2 rfl true [0]⟩

/-! ## Capacity -/

/-- C22: `BASE_STACK_LENGTH` is 2048, and in every reachable stack (allocations
succeeding, block size below `2 ^ 64`) `1 <= allocated_blocks` and
`length <= allocated_blocks` hold; so the slot written by `stack_push` (index
`length` before the increment, after any doubling) and the slot read by
`stack_pop` (index `length - 1`, after any halving) are below
`allocated_blocks`, the block having `allocated_blocks * element_width` bytes. -/
theorem stack_capacity_invariant (s : stack_t) (hr : Reachable s) :
    BASE_STACK_LENGTH = 2048 ∧
    1 ≤ s.allocated_blocks ∧ s.length ≤ s.allocated_blocks ∧
    s.stack_base.length = s.allocated_blocks * s.element_width ∧
    (∀ x : List Nat, x.length = s.element_width →
      (s.length = s.allocated_blocks →
        2 * s.allocated_blocks * s.element_width < SIZE_MOD) →
      s.length < (stack_push true s x).2.allocated_blocks ∧
      (stack_push true s x).2.stack_base.length
        = (stack_push true s x).2.allocated_blocks * s.element_width) ∧
    (∀ loc : List Nat, s.length ≠ 0 →
      s.length - 1 < (stack_pop true s loc).2.2.allocated_blocks ∧
      (stack_pop true s loc).2.2.stack_base.length
        = (stack_pop true s loc).2.2.allocated_blocks * s.element_width) := by
  have h := hr.stack_inv
  have hpos := h.blocks_pos
  have hle := h.length_le
  refine ⟨by decide, hpos, hle, h.base_length, ?_, ?_⟩
  · intro x hx hov
    have hinv := StackInv_push s x h hx hov
    have hbase := hinv.base_length
    rw [stack_push_eq s x h hov] at hbase ⊢
    refine ⟨?_, hbase⟩
    show s.length < (if s.length = s.allocated_blocks then 2 * s.allocated_blocks
      else s.allocated_blocks)
    split <;> omega
  · intro loc hne
    have hinv := StackInv_pop s loc h
    have hbase := hinv.base_length
    rw [stack_pop_eq s loc h hne] at hbase ⊢
    refine ⟨?_, hbase⟩
    show s.length - 1 < (if s.length = s.allocated_blocks / 2 then s.allocated_blocks / 2
      else s.allocated_blocks)
    split <;> omega

/-- C22 on the stack of one-byte elements right after `stack_init`: 2048 blocks
are allocated, none is used, and a push writes slot 0. -/
theorem stack_capacity_invariant_witness :
    Reachable fresh_stack ∧
    1 ≤ fresh_stack.allocated_blocks ∧ fresh_stack.length ≤ fresh_stack.allocated_blocks ∧
    fresh_stack.length < (stack_push true fresh_stack [7]).2.allocated_blocks := by
  have hr : Reachable fresh_stack :=
    Reachable.init { length := 0, element_width := 0, allocated_blocks := 0, stack_base := [] }
      1 fresh_stack (by decide) (by decide) rfl
  have h := stack_capacity_invariant fresh_stack hr
  exact ⟨hr, h.2.1, h.2.2.1, (h.2.2.2.2.1 [7] rfl (by decide)).1⟩

end DynStack
